import Mathlib

/-!
# HashMap and Dictionary: a shallow embedding

The class template `HashMap<KeyT, ValueT>` of `src/HashMap.hpp` (a chained hash table
with a power-of-two bucket array that grows after `insert` and shrinks after `erase`)
and its subclass `Dictionary` of `src/Dictionary.hpp`, as Lean definitions.

Conventions of the embedding.

* The object state is the record `HashMap K V` of the three data members `mapCapacity`,
  `mapSize` and `data`.  `data` (a `new bucket[mapCapacity]` array) is a list of buckets,
  a bucket (`std::vector<entry>`) a list of pairs.  The fourth member, the stateless
  functor `hashFunction = std::hash<KeyT>`, is the same for every table of a key type and
  is an explicit parameter `hashFunction : K → Nat` of every function that hashes.
* A mutating member function returns the new state (next to its C++ result when it has
  one); a `const` member function returns its result only.
* A member function that can throw returns `Except Error _`.
* A `entry*` that is only tested against `nullptr` and dereferenced is `Option (K × V)`.
* `mapSize` is `Int` (it is decremented), `mapCapacity` is `Nat` (it is an array length and
  only ever takes the values 16, 1, twice or half of a capacity, or a copied capacity).
* The two capacity computations double an `int`.  `calculateOptimalCapacityUp`,
  `calculateOptimalCapacityDown` and the members that run them (`resizeUp`, `resizeDown`,
  `insert`, `erase`, `operator[]`) are given twice: on unbounded integers, and, with the
  suffix `Int32`, with the doubling in 32-bit `int` (signed overflow is undefined in C++;
  the compiled program wraps around, and that is what `wrapInt32` models).  The two agree
  while the capacity is below `2 ^ 30` and at most `2 ^ 28` entries are stored
  (`insertInt32_eq`, `eraseInt32_eq`).  The theorems on the capacities and on the result
  of `erase` (C3, C8, C9, C12, C19) are stated for the `Int32` definitions.
* The code compares `static_cast<double>(M) / cap` with the constants 1/4 and 3/4.  For
  `int` arguments that quotient is compared exactly (1/4 and 3/4 are doubles, rounding is
  monotone, and a quotient that is not 3/4 is further than `1 / (4 * cap)` from it), so the
  two comparisons are the integer comparisons `factorLeUpper` and `factorGeLower`.
* An array access outside the array is undefined in C++.  Here a read at an index past
  the end gives the empty bucket, a write there does nothing, and a negative index is
  taken as index 0.  No reachable state makes such an access: the capacity is at least
  1, `hash` is below the capacity, and the loops stop at `end()`.
-/

/-- The exceptions thrown by the two classes: `std::length_error`,
`std::invalid_argument` and its subclass `InvalidKey` of `Dictionary.hpp`, and the
`std::bad_array_new_length` that `new bucket[mapCapacity]` throws for a negative
`mapCapacity`. -/
inductive Error where
  | length_error
  | invalid_argument
  | InvalidKey
  | bad_array_new_length
  deriving DecidableEq, Repr

/-- The data members of `HashMap<KeyT, ValueT>`. -/
structure HashMap (K V : Type) where
  mapCapacity : Nat
  mapSize : Int
  data : List (List (K × V))
  deriving DecidableEq, Repr

/-- The iterator `HashMap::ConstIterator`: the two indices (the `_map` pointer is the
table the iterator functions are applied to). -/
structure ConstIterator where
  bucket_index : Int
  entry_index : Int
  deriving DecidableEq, Repr

namespace HashMap

variable {K V : Type} [DecidableEq K] [DecidableEq V]

/-- `#define DEFAULT_CAPACITY 16`. -/
def DEFAULT_CAPACITY : Nat := 16

/-- `#define ITERATOR_END_VALUE -1`. -/
def ITERATOR_END_VALUE : Int := -1

/-- The test `factor <= UPPER_BOUND` for `factor = static_cast<double>(M) / cap` and
`UPPER_BOUND = 3/4`. -/
def factorLeUpper (M : Int) (cap : Nat) : Bool := decide (4 * M ≤ 3 * (cap : Int))

/-- The test `factor >= LOWER_BOUND` for `factor = static_cast<double>(M) / cap` and
`LOWER_BOUND = 1/4`. -/
def factorGeLower (M : Int) (cap : Nat) : Bool := decide ((cap : Int) ≤ 4 * M)

/-- `HashMap::initialize(capacity, size)`: a fresh array of `capacity` empty buckets. -/
def init (capacity : Nat) (size : Int) : HashMap K V :=
  { mapCapacity := capacity, mapSize := size, data := List.replicate capacity [] }

/-- The default constructor `HashMap()`. -/
def new : HashMap K V := init DEFAULT_CAPACITY 0

/-- `HashMap::size`. -/
def size (t : HashMap K V) : Int := t.mapSize

/-- `HashMap::capacity`. -/
def capacity (t : HashMap K V) : Nat := t.mapCapacity

/-- `HashMap::hash`: `hashFunction(key) & (mapCapacity - 1)`. -/
def hash (hashFunction : K → Nat) (t : HashMap K V) (key : K) : Nat :=
  hashFunction key &&& (t.mapCapacity - 1)

/-- The array read `data[i]`. -/
def bucketAt (t : HashMap K V) (i : Nat) : List (K × V) := (t.data[i]?).getD []

/-- `HashMap::findEntryByKey`: the first entry of bucket `hash(key)` whose key is `key`. -/
def findEntryByKey (hashFunction : K → Nat) (t : HashMap K V) (key : K) : Option (K × V) :=
  (t.bucketAt (t.hash hashFunction key)).find? (fun ent => decide (ent.1 = key))

/-- `HashMap::containsKey`. -/
def containsKey (hashFunction : K → Nat) (t : HashMap K V) (key : K) : Bool :=
  (t.findEntryByKey hashFunction key).isSome

/-- `HashMap::getBucketIndex`. -/
def getBucketIndex (hashFunction : K → Nat) (t : HashMap K V) (key : K) : Except Error Nat :=
  if !t.containsKey hashFunction key then .error Error.invalid_argument
  else .ok (t.hash hashFunction key)

/-- `HashMap::getBucketSize`. -/
def getBucketSize (hashFunction : K → Nat) (t : HashMap K V) (key : K) : Except Error Nat :=
  if !t.containsKey hashFunction key then .error Error.invalid_argument
  else .ok (t.bucketAt (t.hash hashFunction key)).length

/-- `HashMap::at` (both overloads read the same entry). -/
def at_ (hashFunction : K → Nat) (t : HashMap K V) (key : K) : Except Error V :=
  match t.findEntryByKey hashFunction key with
  | none => .error Error.invalid_argument
  | some ent => .ok ent.2

/-- The assignment `ent->second = value` through the pointer `findEntryByKey` returned:
the first entry of the bucket whose key is `key` gets the value. -/
def setSecond (key : K) (value : V) : List (K × V) → List (K × V)
  | [] => []
  | ent :: rest =>
    if ent.1 = key then (ent.1, value) :: rest else ent :: setSecond key value rest

/-- `HashMap::insertEntry(key, value, shouldReplace)`. -/
def insertEntry (hashFunction : K → Nat) (t : HashMap K V) (key : K) (value : V)
    (shouldReplace : Bool) : Bool × HashMap K V :=
  match t.findEntryByKey hashFunction key with
  | some _ =>
    if shouldReplace then
      let index := t.hash hashFunction key
      (true, { t with data := t.data.set index (setSecond key value (t.bucketAt index)) })
    else (false, t)
  | none =>
    let index := t.hash hashFunction key
    (true, { t with data := t.data.set index (t.bucketAt index ++ [(key, value)]),
                    mapSize := t.mapSize + 1 })

/-- `HashMap::calculateOptimalCapacityUp`, with `mapCapacity * 2` on unbounded integers.
`calculateOptimalCapacityUpInt32` is the computation in `int`; it is the same below
capacity `2 ^ 30` (`calculateOptimalCapacityUpInt32_eq`). -/
def calculateOptimalCapacityUp (t : HashMap K V) (M : Int) : Nat :=
  if M = 0 then 1
  else if factorLeUpper M t.mapCapacity then t.mapCapacity
  else t.mapCapacity * 2

/-- The loop `while (factor >= LOWER_BOUND) { cap *= 2; factor = M / cap; }` of
`calculateOptimalCapacityDown`, run for at most `fuel` iterations, with `cap *= 2` on
unbounded integers (`calculateOptimalCapacityDownLoopInt32` is the loop with `int cap`). -/
def calculateOptimalCapacityDownLoop (M : Int) : Nat → Nat → Nat
  | 0, cap => cap
  | fuel + 1, cap =>
    if factorGeLower M cap then calculateOptimalCapacityDownLoop M fuel (cap * 2) else cap

/-- `HashMap::calculateOptimalCapacityDown`, with `cap *= 2` on unbounded integers.  The
loop gets `4 * M + 1` iterations, more than it uses (`calculateOptimalCapacityDownLoop_exit`).
`calculateOptimalCapacityDownInt32` is the computation with `int cap`; it is the same for
`M < 2 ^ 28` (`calculateOptimalCapacityDownInt32_eq`) and negative from there on
(`calculateOptimalCapacityDownInt32_overflow`). -/
def calculateOptimalCapacityDown (M : Int) : Nat :=
  if M = 0 then 1
  else calculateOptimalCapacityDownLoop M ((4 * M).toNat + 1) 1 / 2

/-- `HashMap::resize`: a fresh array of `optimalCapacity` buckets, then every entry of the
old buckets `0 .. oldCapacity - 1`, in order, goes through `insertEntry`. -/
def resize (hashFunction : K → Nat) (t : HashMap K V) (optimalCapacity : Nat) : HashMap K V :=
  (List.range t.mapCapacity).foldl
    (fun acc i =>
      (t.bucketAt i).foldl (fun acc2 ent => (acc2.insertEntry hashFunction ent.1 ent.2 false).2) acc)
    (init optimalCapacity 0)

/-- `HashMap::resizeUp`, with the target on unbounded integers (`resizeUpInt32` has the
`int` target). -/
def resizeUp (hashFunction : K → Nat) (t : HashMap K V) : HashMap K V :=
  let optimalCapacity := t.calculateOptimalCapacityUp t.size
  if t.mapCapacity ≥ optimalCapacity then t else t.resize hashFunction optimalCapacity

/-- `HashMap::resizeDown`, with the target on unbounded integers (`resizeDownInt32` has the
`int` target, and the exception of `resize` for a negative one). -/
def resizeDown (hashFunction : K → Nat) (t : HashMap K V) : HashMap K V :=
  let optimalCapacity := calculateOptimalCapacityDown t.size
  if t.mapCapacity ≤ optimalCapacity then t else t.resize hashFunction optimalCapacity

/-- `HashMap::insert(key, value)`, with the growth check on unbounded integers
(`insertInt32` has it in `int`; the two are the same below capacity `2 ^ 30`,
`insertInt32_eq`). -/
def insert (hashFunction : K → Nat) (t : HashMap K V) (key : K) (value : V) :
    Bool × HashMap K V :=
  let r := t.insertEntry hashFunction key value false
  if !r.1 then (false, r.2) else (true, r.2.resizeUp hashFunction)

/-- `HashMap::erase(key)`, with the shrink check on unbounded integers (`eraseInt32` has
it in `int`; the two are the same while at most `2 ^ 28` entries are stored,
`eraseInt32_eq`).  `std::remove(first, last, *ent)` drops every element equal to
the entry found (as a pair); when the keys of a bucket are pairwise distinct, which holds
in every reachable state, that is the one element `ent` points to, also though `*ent`
is passed by reference into the range being compacted. -/
def erase (hashFunction : K → Nat) (t : HashMap K V) (key : K) : Bool × HashMap K V :=
  match t.findEntryByKey hashFunction key with
  | none => (false, t)
  | some ent =>
    let index := t.hash hashFunction key
    let t1 : HashMap K V :=
      { t with data := t.data.set index ((t.bucketAt index).filter (fun e => decide (e ≠ ent))),
               mapSize := t.mapSize - 1 }
    (true, t1.resizeDown hashFunction)

/-- `HashMap::clear`. -/
def clear (t : HashMap K V) : HashMap K V := init t.mapCapacity 0

/-- `HashMap::end` (and `cend`). -/
def end_ (_t : HashMap K V) : ConstIterator :=
  { bucket_index := ITERATOR_END_VALUE, entry_index := ITERATOR_END_VALUE }

/-- `ConstIterator::setToAvailableBucket(starting_pos)`: the first non-empty bucket among
`starting_pos .. mapCapacity - 1`, or the end value. -/
def setToAvailableBucket (t : HashMap K V) (starting_pos : Int) : ConstIterator :=
  match ((List.range t.mapCapacity).drop starting_pos.toNat).find?
      (fun i => !(t.bucketAt i).isEmpty) with
  | some i => { bucket_index := i, entry_index := 0 }
  | none => { bucket_index := ITERATOR_END_VALUE, entry_index := ITERATOR_END_VALUE }

/-- `HashMap::begin` (and `cbegin`): `ConstIterator(this)`. -/
def begin (t : HashMap K V) : ConstIterator := t.setToAvailableBucket 0

/-- `ConstIterator::operator*`: `data[bucket_index][entry_index]`. -/
def deref (t : HashMap K V) (it : ConstIterator) : Option (K × V) :=
  if 0 ≤ it.bucket_index ∧ 0 ≤ it.entry_index then
    (t.bucketAt it.bucket_index.toNat)[it.entry_index.toNat]?
  else none

/-- `ConstIterator::operator++` (prefix). -/
def next (t : HashMap K V) (it : ConstIterator) : ConstIterator :=
  let entry_index := it.entry_index + 1
  if ((t.bucketAt it.bucket_index.toNat).length : Int) = entry_index then
    t.setToAvailableBucket (it.bucket_index + 1)
  else { it with entry_index := entry_index }

/-- The range-based loop `for (const entry& item : t)` started at `it`: the entries it
visits, for at most `fuel` iterations. -/
def forEachFrom (t : HashMap K V) : Nat → ConstIterator → List (K × V)
  | 0, _ => []
  | fuel + 1, it =>
    if it = t.end_ then []
    else
      match t.deref it with
      | some ent => ent :: forEachFrom t fuel (t.next it)
      | none => []

/-- The entries visited by `for (const entry& item : t)`.  The loop gets one iteration
more than there are stored entries; it leaves through its test `it != end()` before
using the last one (`entries_eq_flatten`). -/
def entries (t : HashMap K V) : List (K × V) :=
  t.forEachFrom (t.data.flatten.length + 1) t.begin

/-- The loop body test of `operator==`:
`!b.containsKey(item.first) || b.at(item.first) != item.second`.  The right operand is
only evaluated when `containsKey` is true, and then `at` does not throw. -/
def differsAt (hashFunction : K → Nat) (b : HashMap K V) (item : K × V) : Bool :=
  !b.containsKey hashFunction item.1 ||
    (match b.at_ hashFunction item.1 with
     | .ok v => decide (v ≠ item.2)
     | .error _ => true)

/-- The friend `operator==(a, b)`. -/
def beq (hashFunction : K → Nat) (a b : HashMap K V) : Bool :=
  if a.mapSize ≠ b.mapSize then false
  else if a.entries.any (differsAt hashFunction b) then false
  else if b.entries.any (differsAt hashFunction a) then false
  else true

/-- `HashMap::operator=`. -/
def assign (hashFunction : K → Nat) (self hash_map : HashMap K V) : HashMap K V :=
  if beq hashFunction self hash_map then self
  else
    let self1 : HashMap K V :=
      if self.mapCapacity ≠ hash_map.mapCapacity then init hash_map.mapCapacity 0 else self
    { self1 with
      mapSize := hash_map.mapSize,
      data := (List.range self1.mapCapacity).foldl
        (fun d i => d.set i (hash_map.bucketAt i)) self1.data }

/-- The copy constructor `HashMap(const HashMap&)`: `HashMap()`, then `*this = hash_map`. -/
def copy (hashFunction : K → Nat) (hash_map : HashMap K V) : HashMap K V :=
  assign hashFunction new hash_map

/-- The non-const `operator[]`: the value referred to, and the new state. -/
def indexOperator [Inhabited V] (hashFunction : K → Nat) (t : HashMap K V) (key : K) :
    Option V × HashMap K V :=
  match t.findEntryByKey hashFunction key with
  | some ent => (some ent.2, t)
  | none =>
    let t1 := (t.insert hashFunction key default).2
    ((t1.findEntryByKey hashFunction key).map Prod.snd, t1)

/-- Modelled from the spec: the three-argument `insert(key, value, true)` that the
constructor `HashMap(keys, values)` calls is not declared in `HashMap.hpp` (its `insert`
takes two arguments, so the constructor does not compile as it stands).  The spec
describes the bulk construction as last-duplicate-wins insertion "followed by one
post-construction growth check", and the constructor itself calls `resizeUp()` once after
its loop; the callee is therefore taken as the protected `insertEntry` with its replace
flag, without a growth check of its own.  What is proved about the constructor holds for
this reading of the callee. -/
def insert3 (hashFunction : K → Nat) (t : HashMap K V) (key : K) (value : V)
    (shouldReplace : Bool) : Bool × HashMap K V :=
  t.insertEntry hashFunction key value shouldReplace

/-- The constructor `HashMap(keys, values)`. -/
def ofVectors (hashFunction : K → Nat) (keys : List K) (values : List V) :
    Except Error (HashMap K V) :=
  if keys.length ≠ values.length then .error Error.length_error
  else
    .ok (((keys.zip values).foldl
      (fun t kv => (t.insert3 hashFunction kv.1 kv.2 true).2) new).resizeUp hashFunction)

/-- Modelled from the spec: `HashMap::insertion(key, value, true)`, which
`Dictionary::update` calls, is not declared in `HashMap.hpp` (so `update` does not compile
as it stands).  The spec calls it "the override-capable internal insertion path
(insert-with-replace)" of the protected surface, used "rather than the public `insert`";
it is therefore taken as `insertEntry`, which makes no growth check.  What is proved
about `update` holds for this reading of the callee. -/
def insertion (hashFunction : K → Nat) (t : HashMap K V) (key : K) (value : V)
    (shouldReplace : Bool) : Bool × HashMap K V :=
  t.insertEntry hashFunction key value shouldReplace

end HashMap

/-- `class Dictionary : public HashMap<std::string, std::string>`. -/
abbrev Dictionary := HashMap String String

namespace Dictionary

/-- `Dictionary::erase`: the base `erase`, throwing `InvalidKey` when it returns false
(over `HashMap.erase`; `HashMap.dictionaryEraseInt32` is the same over `eraseInt32`). -/
def erase (hashFunction : String → Nat) (d : Dictionary) (key : String) :
    Except Error (Bool × Dictionary) :=
  let r := HashMap.erase hashFunction d key
  if !r.1 then .error Error.InvalidKey else .ok (true, r.2)

/-- `Dictionary::update(begin, end)`, the iterator range given as the list of its pairs. -/
def update (hashFunction : String → Nat) (d : Dictionary) (pairs : List (String × String)) :
    Dictionary :=
  pairs.foldl (fun t value => (HashMap.insertion hashFunction t value.1 value.2 true).2) d

end Dictionary

namespace HashMap

variable {K V : Type} [DecidableEq K]

/-- The states a client can reach: a table made by one of the three constructors and
changed by the public mutating members, by assignment from another such table and by
the `insertion(key, value, true)` steps `Dictionary::update` performs
(`Dictionary::erase`, when it does not throw, leaves the state of the base `erase`).
The steps are those on unbounded integers; the set is closed under the steps in `int` as
well (`Reachable.insertInt32_closed`, `Reachable.eraseInt32_closed`), so it contains every
state the compiled program reaches. -/
inductive Reachable [DecidableEq V] [Inhabited V] (hashFunction : K → Nat) : HashMap K V → Prop
  | new : Reachable hashFunction HashMap.new
  | ofVectors (keys : List K) (values : List V) (t : HashMap K V) :
      HashMap.ofVectors hashFunction keys values = .ok t → Reachable hashFunction t
  | copy (s : HashMap K V) : Reachable hashFunction s → Reachable hashFunction (s.copy hashFunction)
  | insert (t : HashMap K V) (key : K) (value : V) :
      Reachable hashFunction t → Reachable hashFunction (t.insert hashFunction key value).2
  | indexOperator (t : HashMap K V) (key : K) :
      Reachable hashFunction t → Reachable hashFunction (t.indexOperator hashFunction key).2
  | erase (t : HashMap K V) (key : K) :
      Reachable hashFunction t → Reachable hashFunction (t.erase hashFunction key).2
  | clear (t : HashMap K V) : Reachable hashFunction t → Reachable hashFunction t.clear
  | assign (a b : HashMap K V) :
      Reachable hashFunction a → Reachable hashFunction b →
      Reachable hashFunction (a.assign hashFunction b)
  | insertion (t : HashMap K V) (key : K) (value : V) :
      Reachable hashFunction t → Reachable hashFunction (t.insertion hashFunction key value true).2

/-- The representation invariant: the capacity is a power of two, the array has
`mapCapacity` buckets, every entry sits in the bucket its key hashes to, no key is stored
twice, and `mapSize` counts the stored entries. -/
structure WF (hashFunction : K → Nat) (t : HashMap K V) : Prop where
  cap_pow : ∃ n : Nat, t.mapCapacity = 2 ^ n
  len : t.data.length = t.mapCapacity
  placed : ∀ i : Nat, ∀ ent ∈ t.bucketAt i, t.hash hashFunction ent.1 = i
  nodup : (t.data.flatten.map Prod.fst).Nodup
  count : t.mapSize = (t.data.flatten.length : Int)

/-! ## Definitions used in the proofs, and the tables of the concrete scenarios -/

/-- The iterator `it` of table `t` stands in front of the entries `rest`: either it is the
end value and nothing is left, or it points at an entry of a bucket and `rest` is the
remainder of that bucket followed by all later buckets. -/
def AtPos (t : HashMap K V) (it : ConstIterator) (rest : List (K × V)) : Prop :=
  (rest = [] ∧ it = t.end_) ∨
  ∃ b e : Nat, it = { bucket_index := b, entry_index := e } ∧ b < t.data.length ∧
    e < (t.bucketAt b).length ∧
    rest = (t.bucketAt b).drop e ++ (t.data.drop (b + 1)).flatten

/-- A table of capacity 1: the default table after one insert and the erase of that key. -/
def shrunkTable : HashMap Nat Nat :=
  (((new : HashMap Nat Nat).insert id 7 70).2.erase id 7).2

/-- The table of the concrete scenario: keys 1, 2, 3 inserted into the default table. -/
def threeKeys : HashMap Nat Nat :=
  ((((new : HashMap Nat Nat).insert id 1 10).2.insert id 2 20).2.insert id 3 30).2

/-- A hash function on strings for the concrete scenarios (`std::hash<std::string>` is
implementation-defined; the theorems hold for every hash function). -/
def stringHash (s : String) : Nat :=
  s.data.foldl (fun h c => 31 * h + c.toNat) 0

/-- The table `HashMap(keys, values)` for the keys a, b, c and the values 1, 2, 3. -/
def abcTable : HashMap String String :=
  match ofVectors stringHash ["a", "b", "c"] ["1", "2", "3"] with
  | .ok d => d
  | .error _ => new

/-- The pair 1 ↦ 10 in a table of capacity 16. -/
def oneKeyWide : HashMap Nat Nat := ((new : HashMap Nat Nat).insert id 1 10).2

/-- The pair 1 ↦ 10 in a table of capacity 4 (two inserts, then an erase that shrinks). -/
def oneKeyNarrow : HashMap Nat Nat :=
  ((((new : HashMap Nat Nat).insert id 2 20).2.insert id 1 10).2.erase id 2).2

/-- The pair 1 ↦ 11 in a table of capacity 16. -/
def oneKeyOther : HashMap Nat Nat := ((new : HashMap Nat Nat).insert id 1 11).2

/-- The table `HashMap(keys, values)` for the keys 1, 2, 1 and the values 10, 20, 30. -/
def lastWinsTable : HashMap Nat Nat :=
  match ofVectors id [1, 2, 1] [10, 20, 30] with
  | .ok d => d
  | .error _ => new

/-- The pairs of the concrete `update` scenario: a is set twice, d is new. -/
def updatePairs : List (String × String) := [("a", "9"), ("d", "4"), ("a", "7")]

/-- The value a 32-bit `int` holds after an arithmetic result `x`.  Signed overflow is
undefined in C++; on the usual targets it wraps around in two's complement, which is what
this models. -/
def wrapInt32 (x : Int) : Int := (x + 2147483648) % 4294967296 - 2147483648

/-- The test `factor >= LOWER_BOUND` for `factor = static_cast<double>(M) / cap` and
`LOWER_BOUND = 1/4`, for an `int cap` of any sign: dividing by a negative `cap` turns the
comparison around, and dividing a positive `M` by zero gives infinity. -/
def factorGeLowerInt32 (M cap : Int) : Bool :=
  if 0 < cap then decide (cap ≤ 4 * M)
  else if cap < 0 then decide (4 * M ≤ cap)
  else decide (0 < M)

/-- The loop `while (factor >= LOWER_BOUND) { cap *= 2; factor = M / cap; }` with
`int cap`, run for at most `fuel` iterations. -/
def calculateOptimalCapacityDownLoopInt32 (M : Int) : Nat → Int → Int
  | 0, cap => cap
  | fuel + 1, cap =>
    if factorGeLowerInt32 M cap then
      calculateOptimalCapacityDownLoopInt32 M fuel (wrapInt32 (cap * 2))
    else cap

/-- `HashMap::calculateOptimalCapacityDown` with `int cap`.  The loop gets 32 iterations;
for `M > 0` it leaves through its test after at most 31 doublings, since the doubling of
`2 ^ 30` wraps to a negative `cap` (`calculateOptimalCapacityDownLoopInt32_exit`).
`cap / 2` is the truncating division of C++. -/
def calculateOptimalCapacityDownInt32 (M : Int) : Int :=
  if M = 0 then 1
  else Int.tdiv (calculateOptimalCapacityDownLoopInt32 M 32 1) 2

/-- `HashMap::resizeDown` with the `int` target.  For a negative target the
`new bucket[mapCapacity]` of `initialize`, the first thing `resize` does after saving the
old array, throws `std::bad_array_new_length`. -/
def resizeDownInt32 (hashFunction : K → Nat) (t : HashMap K V) : Except Error (HashMap K V) :=
  let optimalCapacity := calculateOptimalCapacityDownInt32 t.size
  if (t.mapCapacity : Int) ≤ optimalCapacity then .ok t
  else if optimalCapacity < 0 then .error Error.bad_array_new_length
  else .ok (t.resize hashFunction optimalCapacity.toNat)

/-- `HashMap::erase(key)` with the shrink check in `int`: the exception of `resizeDown`
leaves `erase` (nothing catches it), so no value is returned. -/
def eraseInt32 [DecidableEq V] (hashFunction : K → Nat) (t : HashMap K V) (key : K) :
    Except Error (Bool × HashMap K V) :=
  match t.findEntryByKey hashFunction key with
  | none => .ok (false, t)
  | some ent =>
    let index := t.hash hashFunction key
    let t1 : HashMap K V :=
      { t with data := t.data.set index ((t.bucketAt index).filter (fun e => decide (e ≠ ent))),
               mapSize := t.mapSize - 1 }
    match t1.resizeDownInt32 hashFunction with
    | .ok t2 => .ok (true, t2)
    | .error e => .error e

theorem flatten_split {α : Type} (l : List (List α)) (i : Nat) (h : i < l.length) :
    l.flatten = (l.take i).flatten ++ ((l[i]?).getD [] ++ (l.drop (i + 1)).flatten) := by
  induction l generalizing i with
  | nil => simp at h
  | cons b l ih =>
    cases i with
    | zero => simp
    | succ i =>
      simp only [List.length_cons, Nat.add_lt_add_iff_right] at h
      simp [ih i h]

theorem flatten_set {α : Type} (l : List (List α)) (i : Nat) (b : List α) (h : i < l.length) :
    (l.set i b).flatten = (l.take i).flatten ++ (b ++ (l.drop (i + 1)).flatten) := by
  induction l generalizing i with
  | nil => simp at h
  | cons c l ih =>
    cases i with
    | zero => simp
    | succ i =>
      simp only [List.length_cons, Nat.add_lt_add_iff_right] at h
      simp [ih i h]

theorem getD_set {α : Type} (l : List (List α)) (i j : Nat) (b : List α) (h : i < l.length) :
    ((l.set i b)[j]?).getD [] = if j = i then b else (l[j]?).getD [] := by
  induction l generalizing i j with
  | nil => simp at h
  | cons c l ih =>
    cases i with
    | zero => cases j <;> simp
    | succ i =>
      simp only [List.length_cons, Nat.add_lt_add_iff_right] at h
      cases j with
      | zero => simp
      | succ j => simpa using ih i j h

theorem getD_eq_nil_of_le {α : Type} (l : List (List α)) (i : Nat) (h : l.length ≤ i) :
    (l[i]?).getD [] = [] := by
  induction l generalizing i with
  | nil => simp
  | cons c l ih =>
    cases i with
    | zero => simp at h
    | succ i =>
      simp only [List.length_cons, Nat.add_le_add_iff_right] at h
      simpa using ih i h

theorem mem_flatten_of_mem_getD {α : Type} (l : List (List α)) (i : Nat) (x : α)
    (h : x ∈ (l[i]?).getD []) : x ∈ l.flatten := by
  by_cases hi : i < l.length
  · rw [flatten_split l i hi]
    exact List.mem_append_right _ (List.mem_append_left _ h)
  · rw [getD_eq_nil_of_le l i (Nat.le_of_not_lt hi)] at h
    simp at h

theorem exists_getD_of_mem_flatten {α : Type} (l : List (List α)) (x : α)
    (h : x ∈ l.flatten) : ∃ i, i < l.length ∧ x ∈ (l[i]?).getD [] := by
  induction l with
  | nil => simp at h
  | cons c l ih =>
    simp only [List.flatten_cons, List.mem_append] at h
    rcases h with h | h
    · exact ⟨0, by simp, by simpa using h⟩
    · obtain ⟨i, hi, hx⟩ := ih h
      exact ⟨i + 1, by simpa using hi, by simpa using hx⟩

/-! ## Buckets with pairwise distinct keys -/

theorem find_of_mem (b : List (K × V)) (k : K) (v : V)
    (hnd : (b.map Prod.fst).Nodup) (h : (k, v) ∈ b) :
    b.find? (fun ent => decide (ent.1 = k)) = some (k, v) := by
  induction b with
  | nil => simp at h
  | cons e b ih =>
    simp only [List.map_cons, List.nodup_cons] at hnd
    by_cases hk : e.1 = k
    · rcases List.mem_cons.1 h with h | h
      · simp [← h]
      · exact absurd (List.mem_map_of_mem Prod.fst h) (by simpa [hk] using hnd.1)
    · rcases List.mem_cons.1 h with h | h
      · exact absurd (by rw [← h]) hk
      · simpa [List.find?_cons, hk] using ih hnd.2 h

theorem find_some_key (b : List (K × V)) (k : K) (e : K × V)
    (h : b.find? (fun ent => decide (ent.1 = k)) = some e) : e.1 = k ∧ e ∈ b := by
  have h1 := List.find?_some h
  have h2 := List.mem_of_find?_eq_some h
  exact ⟨by simpa using h1, h2⟩

theorem bucket_find_none_iff (b : List (K × V)) (k : K) :
    b.find? (fun ent => decide (ent.1 = k)) = none ↔ k ∉ b.map Prod.fst := by
  simp only [List.find?_eq_none, decide_eq_true_eq, List.mem_map, Prod.exists, not_exists, not_and]
  constructor
  · intro h a v hm hk
    exact h (a, v) hm hk
  · intro h x hx hk
    exact h x.1 x.2 hx hk

end HashMap

namespace HashMap

variable {K V : Type} [DecidableEq K]

/-! ## Hashing and lookup in a well-formed table -/

omit [DecidableEq K] in
theorem hash_lt_capacity (hashFunction : K → Nat) (t : HashMap K V) (key : K)
    (h : 0 < t.mapCapacity) : t.hash hashFunction key < t.mapCapacity :=
  Nat.lt_of_le_of_lt Nat.and_le_right (by omega)

omit [DecidableEq K] in
theorem WF.cap_pos {hashFunction : K → Nat} {t : HashMap K V} (h : WF hashFunction t) :
    0 < t.mapCapacity := by
  obtain ⟨n, hn⟩ := h.cap_pow
  rw [hn]
  exact Nat.two_pow_pos n

omit [DecidableEq K] in
theorem WF.hash_lt {hashFunction : K → Nat} {t : HashMap K V} (h : WF hashFunction t)
    (key : K) : t.hash hashFunction key < t.data.length := by
  rw [h.len]
  exact hash_lt_capacity hashFunction t key h.cap_pos

omit [DecidableEq K] in
theorem bucketAt_sublist (t : HashMap K V) (i : Nat) :
    (t.bucketAt i).Sublist t.data.flatten := by
  unfold bucketAt
  by_cases hi : i < t.data.length
  · rw [List.getElem?_eq_getElem hi]
    exact List.sublist_flatten_of_mem (List.getElem_mem hi)
  · rw [List.getElem?_eq_none (Nat.le_of_not_lt hi)]
    exact List.nil_sublist _

omit [DecidableEq K] in
theorem mem_flatten_of_mem_bucketAt (t : HashMap K V) (i : Nat) (ent : K × V)
    (h : ent ∈ t.bucketAt i) : ent ∈ t.data.flatten :=
  (bucketAt_sublist t i).subset h

omit [DecidableEq K] in
theorem WF.bucket_nodup {hashFunction : K → Nat} {t : HashMap K V} (h : WF hashFunction t)
    (i : Nat) : ((t.bucketAt i).map Prod.fst).Nodup :=
  List.Nodup.sublist ((bucketAt_sublist t i).map Prod.fst) h.nodup

theorem findEntryByKey_fst (hashFunction : K → Nat) (t : HashMap K V) (key : K) (ent : K × V)
    (h : t.findEntryByKey hashFunction key = some ent) : ent.1 = key :=
  (find_some_key _ key ent h).1

theorem findEntryByKey_mem (hashFunction : K → Nat) (t : HashMap K V) (key : K) (ent : K × V)
    (h : t.findEntryByKey hashFunction key = some ent) :
    ent ∈ t.bucketAt (t.hash hashFunction key) :=
  (find_some_key _ key ent h).2

theorem WF.find_iff {hashFunction : K → Nat} {t : HashMap K V} (h : WF hashFunction t)
    (key : K) (value : V) :
    t.findEntryByKey hashFunction key = some (key, value) ↔ (key, value) ∈ t.data.flatten := by
  constructor
  · intro hf
    exact mem_flatten_of_mem_bucketAt t _ _ (findEntryByKey_mem hashFunction t key _ hf)
  · intro hm
    obtain ⟨i, _, hi⟩ := exists_getD_of_mem_flatten t.data (key, value) hm
    have hp := h.placed i (key, value) hi
    simp only at hp
    unfold findEntryByKey
    rw [hp]
    exact find_of_mem _ key value (h.bucket_nodup i) hi

theorem WF.find_none_iff {hashFunction : K → Nat} {t : HashMap K V} (h : WF hashFunction t)
    (key : K) :
    t.findEntryByKey hashFunction key = none ↔ key ∉ t.data.flatten.map Prod.fst := by
  constructor
  · intro hf hm
    obtain ⟨⟨k, v⟩, hkv, hk⟩ := List.mem_map.1 hm
    simp only at hk
    subst hk
    rw [(h.find_iff k v).2 hkv] at hf
    exact Option.noConfusion hf
  · intro hn
    cases hfe : t.findEntryByKey hashFunction key with
    | none => rfl
    | some ent =>
      exfalso
      apply hn
      have h1 := findEntryByKey_fst hashFunction t key ent hfe
      have h2 := mem_flatten_of_mem_bucketAt t _ _ (findEntryByKey_mem hashFunction t key ent hfe)
      exact List.mem_map.2 ⟨ent, h2, h1⟩

/-! ## The empty table -/

omit [DecidableEq K] in
theorem init_flatten (c : Nat) (s : Int) : (init c s : HashMap K V).data.flatten = [] := by
  simp [init]

omit [DecidableEq K] in
theorem init_bucketAt (c : Nat) (s : Int) (i : Nat) : (init c s : HashMap K V).bucketAt i = [] := by
  unfold bucketAt init
  simp only [List.getElem?_replicate]
  split <;> rfl

omit [DecidableEq K] in
theorem WF_init (hashFunction : K → Nat) (n : Nat) :
    WF hashFunction (init (2 ^ n) 0 : HashMap K V) where
  cap_pow := ⟨n, rfl⟩
  len := by simp [init]
  placed := by
    intro i ent h
    rw [init_bucketAt] at h
    simp at h
  nodup := by rw [init_flatten]; simp
  count := by rw [init_flatten]; simp [init]

/-! ## `insertEntry` of a key that is not stored -/

theorem insertEntry_absent (hashFunction : K → Nat) (t : HashMap K V) (key : K) (value : V)
    (r : Bool) (hfind : t.findEntryByKey hashFunction key = none) :
    t.insertEntry hashFunction key value r =
      (true, { t with
        data := t.data.set (t.hash hashFunction key)
          (t.bucketAt (t.hash hashFunction key) ++ [(key, value)]),
        mapSize := t.mapSize + 1 }) := by
  unfold insertEntry
  rw [hfind]

theorem insertEntry_absent_flatten {hashFunction : K → Nat} {t : HashMap K V}
    (h : WF hashFunction t) (key : K) (value : V) (r : Bool)
    (hfind : t.findEntryByKey hashFunction key = none) :
    (t.insertEntry hashFunction key value r).2.data.flatten.Perm
      (t.data.flatten ++ [(key, value)]) := by
  rw [insertEntry_absent hashFunction t key value r hfind]
  simp only
  rw [flatten_set _ _ _ (h.hash_lt key)]
  conv_rhs => rw [flatten_split t.data _ (h.hash_lt key)]
  unfold bucketAt
  simp only [List.append_assoc]
  refine List.Perm.append_left _ (List.Perm.append_left _ ?_)
  exact List.perm_append_comm

theorem insertEntry_absent_WF {hashFunction : K → Nat} {t : HashMap K V}
    (h : WF hashFunction t) (key : K) (value : V) (r : Bool)
    (hfind : t.findEntryByKey hashFunction key = none) :
    WF hashFunction (t.insertEntry hashFunction key value r).2 := by
  have hperm := insertEntry_absent_flatten h key value r hfind
  have hkeys := hperm.map Prod.fst
  rw [insertEntry_absent hashFunction t key value r hfind] at hperm hkeys ⊢
  simp only at hperm hkeys ⊢
  refine ⟨h.cap_pow, by simpa using h.len, ?_, ?_, ?_⟩
  · intro i ent hent
    unfold bucketAt at hent
    simp only [List.getElem?_set] at hent
    change t.hash hashFunction ent.1 = i
    by_cases hi : t.hash hashFunction key = i
    · rw [if_pos hi, if_pos (h.hash_lt key)] at hent
      simp only [Option.getD_some, List.mem_append, List.mem_singleton] at hent
      rcases hent with hent | hent
      · rw [hi] at hent
        exact h.placed i ent hent
      · rw [hent]
        exact hi
    · rw [if_neg hi] at hent
      exact h.placed i ent hent
  · rw [hkeys.nodup_iff]
    simp only [List.map_append, List.map_cons, List.map_nil]
    rw [List.nodup_append]
    refine ⟨h.nodup, by simp, ?_⟩
    intro a ha hb
    simp only [List.mem_singleton] at hb
    subst hb
    exact (h.find_none_iff a).1 hfind ha
  · rw [hperm.length_eq, h.count]
    simp

theorem insertEntry_absent_size (hashFunction : K → Nat) (t : HashMap K V) (key : K)
    (value : V) (r : Bool) (hfind : t.findEntryByKey hashFunction key = none) :
    (t.insertEntry hashFunction key value r).2.mapSize = t.mapSize + 1 := by
  rw [insertEntry_absent hashFunction t key value r hfind]

theorem insertEntry_capacity (hashFunction : K → Nat) (t : HashMap K V) (key : K)
    (value : V) (r : Bool) :
    (t.insertEntry hashFunction key value r).2.mapCapacity = t.mapCapacity := by
  unfold insertEntry
  split
  · split <;> rfl
  · rfl

end HashMap

namespace HashMap

variable {K V : Type} [DecidableEq K]

/-! ## `insertEntry` of a stored key -/

theorem setSecond_keys (key : K) (value : V) (b : List (K × V)) :
    (setSecond key value b).map Prod.fst = b.map Prod.fst := by
  induction b with
  | nil => rfl
  | cons e b ih =>
    unfold setSecond
    split
    · rfl
    · simp [ih]

theorem setSecond_length (key : K) (value : V) (b : List (K × V)) :
    (setSecond key value b).length = b.length := by
  have h := congrArg List.length (setSecond_keys key value b)
  simpa using h

theorem insertEntry_present (hashFunction : K → Nat) (t : HashMap K V) (key : K) (value : V)
    (ent : K × V) (hfind : t.findEntryByKey hashFunction key = some ent) :
    t.insertEntry hashFunction key value false = (false, t) ∧
    t.insertEntry hashFunction key value true =
      (true, { t with
        data := t.data.set (t.hash hashFunction key)
          (setSecond key value (t.bucketAt (t.hash hashFunction key))) }) := by
  unfold insertEntry
  rw [hfind]
  exact ⟨rfl, rfl⟩

theorem insertEntry_replace_keys {hashFunction : K → Nat} {t : HashMap K V}
    (h : WF hashFunction t) (key : K) (value : V) (ent : K × V)
    (hfind : t.findEntryByKey hashFunction key = some ent) :
    (t.insertEntry hashFunction key value true).2.data.flatten.map Prod.fst =
      t.data.flatten.map Prod.fst := by
  rw [(insertEntry_present hashFunction t key value ent hfind).2]
  simp only
  rw [flatten_set _ _ _ (h.hash_lt key)]
  conv_rhs => rw [flatten_split t.data _ (h.hash_lt key)]
  simp only [List.map_append, setSecond_keys]
  rfl

theorem insertEntry_replace_WF {hashFunction : K → Nat} {t : HashMap K V}
    (h : WF hashFunction t) (key : K) (value : V) (ent : K × V)
    (hfind : t.findEntryByKey hashFunction key = some ent) :
    WF hashFunction (t.insertEntry hashFunction key value true).2 := by
  have hkeys := insertEntry_replace_keys h key value ent hfind
  have hlen := congrArg List.length hkeys
  simp only [List.length_map] at hlen
  rw [(insertEntry_present hashFunction t key value ent hfind).2] at hkeys hlen ⊢
  simp only at hkeys hlen ⊢
  refine ⟨h.cap_pow, by simpa using h.len, ?_, ?_, ?_⟩
  · intro i e he
    unfold bucketAt at he
    simp only [List.getElem?_set] at he
    change t.hash hashFunction e.1 = i
    by_cases hi : t.hash hashFunction key = i
    · rw [if_pos hi, if_pos (h.hash_lt key)] at he
      simp only [Option.getD_some] at he
      have hk : e.1 ∈ (setSecond key value (t.bucketAt (t.hash hashFunction key))).map Prod.fst :=
        List.mem_map_of_mem Prod.fst he
      rw [setSecond_keys, hi] at hk
      obtain ⟨e2, he2, hfst⟩ := List.mem_map.1 hk
      rw [← hfst]
      exact h.placed i e2 he2
    · rw [if_neg hi] at he
      exact h.placed i e he
  · rw [hkeys]
    exact h.nodup
  · rw [hlen]
    exact h.count

/-- Whatever the flags and whether or not the key is stored, `insertEntry` keeps the
invariant. -/
theorem insertEntry_WF {hashFunction : K → Nat} {t : HashMap K V}
    (h : WF hashFunction t) (key : K) (value : V) (r : Bool) :
    WF hashFunction (t.insertEntry hashFunction key value r).2 := by
  cases hfind : t.findEntryByKey hashFunction key with
  | none => exact insertEntry_absent_WF h key value r hfind
  | some ent =>
    cases r with
    | true => exact insertEntry_replace_WF h key value ent hfind
    | false =>
      rw [(insertEntry_present hashFunction t key value ent hfind).1]
      exact h

/-! ## Rehashing -/

omit [DecidableEq K] in
theorem map_bucketAt_range (t : HashMap K V) (h : t.data.length = t.mapCapacity) :
    (List.range t.mapCapacity).map t.bucketAt = t.data := by
  apply List.ext_getElem
  · simp [h]
  · intro i h1 h2
    simp [bucketAt, List.getElem?_eq_getElem h2]

theorem resize_eq_foldl (hashFunction : K → Nat) (t : HashMap K V) (c : Nat)
    (h : t.data.length = t.mapCapacity) :
    t.resize hashFunction c =
      t.data.flatten.foldl (fun acc ent => (acc.insertEntry hashFunction ent.1 ent.2 false).2)
        (init c 0) := by
  unfold resize
  rw [List.foldl_flatten]
  conv_rhs => rw [← map_bucketAt_range t h]
  rw [List.foldl_map]

theorem foldl_insertEntry_spec (hashFunction : K → Nat) (es : List (K × V)) :
    ∀ acc : HashMap K V, WF hashFunction acc →
      ((acc.data.flatten ++ es).map Prod.fst).Nodup →
      WF hashFunction
        (es.foldl (fun a ent => (a.insertEntry hashFunction ent.1 ent.2 false).2) acc) ∧
      (es.foldl (fun a ent => (a.insertEntry hashFunction ent.1 ent.2 false).2)
        acc).data.flatten.Perm (acc.data.flatten ++ es) ∧
      (es.foldl (fun a ent => (a.insertEntry hashFunction ent.1 ent.2 false).2)
        acc).mapCapacity = acc.mapCapacity := by
  induction es with
  | nil =>
    intro acc hacc _
    simpa using hacc
  | cons e es ih =>
    intro acc hacc hnd
    have hfind : acc.findEntryByKey hashFunction e.1 = none := by
      rw [hacc.find_none_iff]
      intro hm
      simp only [List.map_append, List.map_cons] at hnd
      exact (List.nodup_append.1 hnd).2.2 hm (List.mem_cons_self _ _)
    have hwf := insertEntry_absent_WF hacc e.1 e.2 false hfind
    have hperm := insertEntry_absent_flatten hacc e.1 e.2 false hfind
    have hnd2 : (((acc.insertEntry hashFunction e.1 e.2 false).2.data.flatten ++ es).map
        Prod.fst).Nodup := by
      refine (List.Perm.nodup_iff (List.Perm.map Prod.fst ?_)).2 hnd
      refine (List.Perm.append_right es hperm).trans ?_
      simp
    obtain ⟨h1, h2, h3⟩ := ih _ hwf hnd2
    refine ⟨h1, ?_, ?_⟩
    · refine h2.trans ((List.Perm.append_right es hperm).trans ?_)
      simp
    · rw [List.foldl_cons, h3, insertEntry_capacity]

theorem resize_spec {hashFunction : K → Nat} {t : HashMap K V} (h : WF hashFunction t)
    (n : Nat) :
    WF hashFunction (t.resize hashFunction (2 ^ n)) ∧
    (t.resize hashFunction (2 ^ n)).data.flatten.Perm t.data.flatten ∧
    (t.resize hashFunction (2 ^ n)).mapCapacity = 2 ^ n ∧
    (t.resize hashFunction (2 ^ n)).mapSize = t.mapSize := by
  rw [resize_eq_foldl hashFunction t _ h.len]
  have hnd : (((init (2 ^ n) 0 : HashMap K V).data.flatten ++ t.data.flatten).map
      Prod.fst).Nodup := by
    rw [init_flatten]
    simpa using h.nodup
  obtain ⟨h1, h2, h3⟩ := foldl_insertEntry_spec hashFunction t.data.flatten _
    (WF_init hashFunction n) hnd
  rw [init_flatten, List.nil_append] at h2
  refine ⟨h1, h2, ?_, ?_⟩
  · rw [h3]
    rfl
  · rw [h1.count, h2.length_eq, h.count]

end HashMap

namespace HashMap

variable {K V : Type} [DecidableEq K]

/-! ## The two capacity computations -/

theorem calculateOptimalCapacityDownLoop_stop (M : Int) (fuel cap : Nat)
    (h : factorGeLower M cap = false) : calculateOptimalCapacityDownLoop M fuel cap = cap := by
  cases fuel with
  | zero => rfl
  | succ fuel => simp [calculateOptimalCapacityDownLoop, h]

theorem factorGeLower_natCast (n cap : Nat) :
    factorGeLower (n : Int) cap = decide (cap ≤ 4 * n) := by
  unfold factorGeLower
  congr 1
  apply propext
  omega

theorem calculateOptimalCapacityDownLoop_spec (n : Nat) :
    ∀ fuel cap : Nat, 4 * n < cap * 2 ^ fuel → cap ≤ 4 * n →
      ∃ j : Nat, calculateOptimalCapacityDownLoop (n : Int) fuel cap = cap * 2 ^ (j + 1) ∧
        cap * 2 ^ j ≤ 4 * n ∧ 4 * n < cap * 2 ^ (j + 1) := by
  intro fuel
  induction fuel with
  | zero =>
    intro cap h1 h2
    simp only [pow_zero, Nat.mul_one] at h1
    omega
  | succ fuel ih =>
    intro cap h1 h2
    have hc : factorGeLower (n : Int) cap = true := by
      rw [factorGeLower_natCast]
      exact decide_eq_true h2
    unfold calculateOptimalCapacityDownLoop
    rw [if_pos hc]
    by_cases h3 : cap * 2 ≤ 4 * n
    · have h4 : 4 * n < cap * 2 * 2 ^ fuel := by
        rw [pow_succ] at h1
        calc 4 * n < cap * (2 ^ fuel * 2) := h1
          _ = cap * 2 * 2 ^ fuel := by ring
      obtain ⟨j, hj1, hj2, hj3⟩ := ih (cap * 2) h4 h3
      refine ⟨j + 1, ?_, ?_, ?_⟩
      · rw [hj1]; ring
      · calc cap * 2 ^ (j + 1) = cap * 2 * 2 ^ j := by ring
          _ ≤ 4 * n := hj2
      · calc 4 * n < cap * 2 * 2 ^ (j + 1) := hj3
          _ = cap * 2 ^ (j + 1 + 1) := by ring
    · have hs : factorGeLower (n : Int) (cap * 2) = false := by
        rw [factorGeLower_natCast]
        exact decide_eq_false h3
      rw [calculateOptimalCapacityDownLoop_stop _ _ _ hs]
      refine ⟨0, by ring, by simpa using h2, by simpa using Nat.lt_of_not_le h3⟩

/-- The loop of `calculateOptimalCapacityDown` leaves through its test, not for lack of
iterations: at the value it returns the test `factor >= LOWER_BOUND` is false. -/
theorem calculateOptimalCapacityDownLoop_exit (n : Nat) (hn : 1 ≤ n) :
    factorGeLower (n : Int)
      (calculateOptimalCapacityDownLoop (n : Int) ((4 * (n : Int)).toNat + 1) 1) = false := by
  have hfuel : (4 * (n : Int)).toNat = 4 * n := by omega
  have h1 : 4 * n < 1 * 2 ^ (4 * n + 1) := by
    have := Nat.lt_two_pow (4 * n + 1)
    omega
  obtain ⟨j, hj1, _, hj3⟩ := calculateOptimalCapacityDownLoop_spec n (4 * n + 1) 1 h1 (by omega)
  rw [hfuel, hj1, factorGeLower_natCast]
  exact decide_eq_false (by omega)

/-- For `n ≥ 1` the shrink target is the largest power of two that is at most `4 * n`. -/
theorem calculateOptimalCapacityDown_spec (n : Nat) (hn : 1 ≤ n) :
    ∃ j : Nat, calculateOptimalCapacityDown (n : Int) = 2 ^ j ∧ 2 ^ j ≤ 4 * n ∧
      4 * n < 2 ^ (j + 1) := by
  have hfuel : (4 * (n : Int)).toNat = 4 * n := by omega
  have h1 : 4 * n < 1 * 2 ^ (4 * n + 1) := by
    have := Nat.lt_two_pow (4 * n + 1)
    omega
  obtain ⟨j, hj1, hj2, hj3⟩ :=
    calculateOptimalCapacityDownLoop_spec n (4 * n + 1) 1 h1 (by omega)
  refine ⟨j, ?_, by simpa using hj2, by simpa using hj3⟩
  unfold calculateOptimalCapacityDown
  rw [if_neg (by omega), hfuel, hj1, pow_succ]
  simp

theorem calculateOptimalCapacityDown_pow (n : Nat) :
    ∃ j : Nat, calculateOptimalCapacityDown (n : Int) = 2 ^ j := by
  cases n with
  | zero => exact ⟨0, rfl⟩
  | succ n =>
    obtain ⟨j, hj, _⟩ := calculateOptimalCapacityDown_spec (n + 1) (by omega)
    exact ⟨j, hj⟩

/-! ## `resizeUp` and `resizeDown` -/

theorem resizeUp_capacity (hashFunction : K → Nat) (t : HashMap K V) (n : Nat)
    (hcap : t.mapCapacity = 2 ^ n) :
    (t.resizeUp hashFunction = t ∧ (t.mapSize = 0 ∨ 4 * t.mapSize ≤ 3 * (t.mapCapacity : Int))) ∨
    (t.resizeUp hashFunction = t.resize hashFunction (2 ^ (n + 1)) ∧
      t.mapSize ≠ 0 ∧ 3 * (t.mapCapacity : Int) < 4 * t.mapSize) := by
  have hpos : 0 < t.mapCapacity := by rw [hcap]; exact Nat.two_pow_pos n
  unfold resizeUp calculateOptimalCapacityUp size
  by_cases h0 : t.mapSize = 0
  · left
    simp only [h0, if_true]
    exact ⟨if_pos hpos, Or.inl trivial⟩
  · by_cases h1 : 4 * t.mapSize ≤ 3 * (t.mapCapacity : Int)
    · left
      have : factorLeUpper t.mapSize t.mapCapacity = true := by
        unfold factorLeUpper
        exact decide_eq_true h1
      simp only [h0, if_false, this, if_true]
      exact ⟨if_pos (Nat.le_refl _), Or.inr h1⟩
    · right
      have : factorLeUpper t.mapSize t.mapCapacity = false := by
        unfold factorLeUpper
        exact decide_eq_false h1
      simp only [h0, if_false, this]
      refine ⟨?_, h0, by omega⟩
      have hlt : ¬ (t.mapCapacity ≥ t.mapCapacity * 2) := by omega
      simp only [Bool.false_eq_true, if_false, hlt]
      rw [hcap, pow_succ]

theorem resizeUp_spec {hashFunction : K → Nat} {t : HashMap K V} (h : WF hashFunction t) :
    WF hashFunction (t.resizeUp hashFunction) ∧
    (t.resizeUp hashFunction).data.flatten.Perm t.data.flatten ∧
    (t.resizeUp hashFunction).mapSize = t.mapSize := by
  obtain ⟨n, hn⟩ := h.cap_pow
  rcases resizeUp_capacity hashFunction t n hn with ⟨he, _⟩ | ⟨he, _⟩
  · rw [he]
    exact ⟨h, List.Perm.refl _, rfl⟩
  · rw [he]
    obtain ⟨h1, h2, _, h4⟩ := resize_spec h (n + 1)
    exact ⟨h1, h2, h4⟩

theorem resizeDown_capacity {hashFunction : K → Nat} {t : HashMap K V}
    (h : WF hashFunction t) :
    (t.resizeDown hashFunction = t ∧ t.mapCapacity ≤ calculateOptimalCapacityDown t.mapSize) ∨
    (∃ j : Nat, calculateOptimalCapacityDown t.mapSize = 2 ^ j ∧
      t.resizeDown hashFunction = t.resize hashFunction (2 ^ j) ∧
      calculateOptimalCapacityDown t.mapSize < t.mapCapacity) := by
  unfold resizeDown size
  by_cases hle : t.mapCapacity ≤ calculateOptimalCapacityDown t.mapSize
  · left
    exact ⟨if_pos hle, hle⟩
  · right
    obtain ⟨j, hj⟩ := calculateOptimalCapacityDown_pow t.data.flatten.length
    rw [← h.count] at hj
    refine ⟨j, hj, ?_, Nat.lt_of_not_le hle⟩
    simp only [hle, if_false]
    rw [hj]

theorem resizeDown_spec {hashFunction : K → Nat} {t : HashMap K V} (h : WF hashFunction t) :
    WF hashFunction (t.resizeDown hashFunction) ∧
    (t.resizeDown hashFunction).data.flatten.Perm t.data.flatten ∧
    (t.resizeDown hashFunction).mapSize = t.mapSize := by
  rcases resizeDown_capacity h with ⟨he, _⟩ | ⟨j, _, he, _⟩
  · rw [he]
    exact ⟨h, List.Perm.refl _, rfl⟩
  · rw [he]
    obtain ⟨h1, h2, _, h4⟩ := resize_spec h j
    exact ⟨h1, h2, h4⟩

end HashMap

namespace HashMap

variable {K V : Type} [DecidableEq K]

/-! ## Lookups as membership -/

theorem containsKey_eq_false_iff (hashFunction : K → Nat) (t : HashMap K V) (key : K) :
    t.containsKey hashFunction key = false ↔ t.findEntryByKey hashFunction key = none := by
  unfold containsKey
  cases t.findEntryByKey hashFunction key <;> simp

theorem containsKey_eq_true_iff (hashFunction : K → Nat) (t : HashMap K V) (key : K) :
    t.containsKey hashFunction key = true ↔
      ∃ ent, t.findEntryByKey hashFunction key = some ent := by
  unfold containsKey
  cases t.findEntryByKey hashFunction key <;> simp

theorem WF.containsKey_iff {hashFunction : K → Nat} {t : HashMap K V}
    (h : WF hashFunction t) (key : K) :
    t.containsKey hashFunction key = true ↔ key ∈ t.data.flatten.map Prod.fst := by
  rw [← not_iff_not, ← h.find_none_iff, ← containsKey_eq_false_iff]
  simp

theorem WF.at_ok_iff {hashFunction : K → Nat} {t : HashMap K V}
    (h : WF hashFunction t) (key : K) (value : V) :
    t.at_ hashFunction key = .ok value ↔ (key, value) ∈ t.data.flatten := by
  rw [← h.find_iff]
  unfold at_
  cases hfe : t.findEntryByKey hashFunction key with
  | none => simp
  | some ent =>
    have hk := findEntryByKey_fst hashFunction t key ent hfe
    obtain ⟨k, v⟩ := ent
    simp only at hk
    subst hk
    simp

theorem at_cases (hashFunction : K → Nat) (t : HashMap K V) (key : K) :
    t.at_ hashFunction key = .error Error.invalid_argument ∨
      ∃ value, t.at_ hashFunction key = .ok value := by
  unfold at_
  cases t.findEntryByKey hashFunction key with
  | none => exact Or.inl rfl
  | some ent => exact Or.inr ⟨ent.2, rfl⟩

/-- Two well-formed tables that store the same values under a key answer `at` alike. -/
theorem at_congr {hashFunction : K → Nat} {t u : HashMap K V}
    (ht : WF hashFunction t) (hu : WF hashFunction u) (key : K)
    (h : ∀ value, (key, value) ∈ t.data.flatten ↔ (key, value) ∈ u.data.flatten) :
    t.at_ hashFunction key = u.at_ hashFunction key := by
  rcases at_cases hashFunction t key with h1 | ⟨v, h1⟩
  · rcases at_cases hashFunction u key with h2 | ⟨w, h2⟩
    · rw [h1, h2]
    · have := (ht.at_ok_iff key w).2 ((h w).2 ((hu.at_ok_iff key w).1 h2))
      rw [h1] at this
      exact Except.noConfusion this
  · rw [h1]
    exact ((hu.at_ok_iff key v).2 ((h v).1 ((ht.at_ok_iff key v).1 h1))).symm

theorem containsKey_congr {hashFunction : K → Nat} {t u : HashMap K V}
    (ht : WF hashFunction t) (hu : WF hashFunction u) (key : K)
    (h : ∀ value, (key, value) ∈ t.data.flatten ↔ (key, value) ∈ u.data.flatten) :
    t.containsKey hashFunction key = u.containsKey hashFunction key := by
  have key_iff : ∀ {s : HashMap K V}, key ∈ s.data.flatten.map Prod.fst ↔
      ∃ value, (key, value) ∈ s.data.flatten := by
    intro s
    constructor
    · intro hm
      obtain ⟨⟨k, v⟩, hkv, hk⟩ := List.mem_map.1 hm
      simp only at hk
      subst hk
      exact ⟨v, hkv⟩
    · rintro ⟨v, hv⟩
      exact List.mem_map.2 ⟨(key, v), hv, rfl⟩
  rw [Bool.eq_iff_iff, ht.containsKey_iff, hu.containsKey_iff, key_iff, key_iff]
  exact exists_congr h

/-! ## `insert` -/

theorem insert_absent (hashFunction : K → Nat) (t : HashMap K V) (key : K) (value : V)
    (hfind : t.findEntryByKey hashFunction key = none) :
    t.insert hashFunction key value =
      (true, (t.insertEntry hashFunction key value false).2.resizeUp hashFunction) := by
  unfold insert
  rw [insertEntry_absent hashFunction t key value false hfind]
  rfl

theorem insert_present (hashFunction : K → Nat) (t : HashMap K V) (key : K) (value : V)
    (ent : K × V) (hfind : t.findEntryByKey hashFunction key = some ent) :
    t.insert hashFunction key value = (false, t) := by
  unfold insert
  rw [(insertEntry_present hashFunction t key value ent hfind).1]
  rfl

theorem insert_absent_spec {hashFunction : K → Nat} {t : HashMap K V}
    (h : WF hashFunction t) (key : K) (value : V)
    (hfind : t.findEntryByKey hashFunction key = none) :
    (t.insert hashFunction key value).1 = true ∧
    WF hashFunction (t.insert hashFunction key value).2 ∧
    (t.insert hashFunction key value).2.data.flatten.Perm (t.data.flatten ++ [(key, value)]) ∧
    (t.insert hashFunction key value).2.mapSize = t.mapSize + 1 := by
  rw [insert_absent hashFunction t key value hfind]
  have hwf := insertEntry_absent_WF h key value false hfind
  obtain ⟨h1, h2, h3⟩ := resizeUp_spec hwf
  refine ⟨rfl, h1, h2.trans (insertEntry_absent_flatten h key value false hfind), ?_⟩
  simp only
  rw [h3, insertEntry_absent_size hashFunction t key value false hfind]

theorem insert_WF {hashFunction : K → Nat} {t : HashMap K V}
    (h : WF hashFunction t) (key : K) (value : V) :
    WF hashFunction (t.insert hashFunction key value).2 := by
  cases hfind : t.findEntryByKey hashFunction key with
  | none => exact (insert_absent_spec h key value hfind).2.1
  | some ent =>
    rw [insert_present hashFunction t key value ent hfind]
    exact h

/-! ## `erase` -/

theorem filter_ne_perm {α : Type} [DecidableEq α] (b : List α) (a : α)
    (hnd : b.Nodup) (ha : a ∈ b) :
    b.Perm (a :: b.filter (fun e => decide (e ≠ a))) := by
  induction b with
  | nil => simp at ha
  | cons x b ih =>
    rw [List.nodup_cons] at hnd
    by_cases hx : x = a
    · subst hx
      have hall : b.filter (fun e => decide (e ≠ x)) = b := by
        rw [List.filter_eq_self]
        intro e he
        simp only [ne_eq, decide_not, Bool.not_eq_eq_eq_not, Bool.not_true, decide_eq_false_iff_not]
        intro hex
        exact hnd.1 (hex ▸ he)
      have hfc : (x :: b).filter (fun e => decide (e ≠ x)) =
          b.filter (fun e => decide (e ≠ x)) := by
        rw [List.filter_cons]
        simp
      rw [hfc, hall]
    · have hab : a ∈ b := by
        rcases List.mem_cons.1 ha with h | h
        · exact absurd h.symm hx
        · exact h
      have hfc : (x :: b).filter (fun e => decide (e ≠ a)) =
          x :: b.filter (fun e => decide (e ≠ a)) := by
        simp [List.filter_cons, hx]
      rw [hfc]
      exact ((ih hnd.2 hab).cons x).trans (List.Perm.swap a x _)

theorem erase_absent [DecidableEq V] (hashFunction : K → Nat) (t : HashMap K V) (key : K)
    (hfind : t.findEntryByKey hashFunction key = none) :
    t.erase hashFunction key = (false, t) := by
  unfold erase
  rw [hfind]

/-- The state of `erase` between `mapSize--` and `resizeDown()`. -/
theorem erase_present [DecidableEq V] (hashFunction : K → Nat) (t : HashMap K V) (key : K)
    (ent : K × V) (hfind : t.findEntryByKey hashFunction key = some ent) :
    t.erase hashFunction key =
      (true, resizeDown hashFunction
        { t with
          data := t.data.set (t.hash hashFunction key)
            ((t.bucketAt (t.hash hashFunction key)).filter (fun e => decide (e ≠ ent))),
          mapSize := t.mapSize - 1 }) := by
  unfold erase
  rw [hfind]

theorem erase_removed_spec [DecidableEq V] {hashFunction : K → Nat} {t : HashMap K V}
    (h : WF hashFunction t) (key : K) (ent : K × V)
    (hfind : t.findEntryByKey hashFunction key = some ent) :
    WF hashFunction
      { t with
        data := t.data.set (t.hash hashFunction key)
          ((t.bucketAt (t.hash hashFunction key)).filter (fun e => decide (e ≠ ent))),
        mapSize := t.mapSize - 1 } ∧
    t.data.flatten.Perm (ent :: (t.data.set (t.hash hashFunction key)
      ((t.bucketAt (t.hash hashFunction key)).filter (fun e => decide (e ≠ ent)))).flatten) := by
  have hmem := findEntryByKey_mem hashFunction t key ent hfind
  have hbnd : (t.bucketAt (t.hash hashFunction key)).Nodup :=
    List.Nodup.of_map Prod.fst (h.bucket_nodup _)
  have hperm : t.data.flatten.Perm (ent :: (t.data.set (t.hash hashFunction key)
      ((t.bucketAt (t.hash hashFunction key)).filter (fun e => decide (e ≠ ent)))).flatten) := by
    rw [flatten_set _ _ _ (h.hash_lt key)]
    conv_lhs => rw [flatten_split t.data _ (h.hash_lt key)]
    refine List.Perm.trans ?_ List.perm_middle
    refine List.Perm.append_left _ ?_
    exact List.Perm.append_right _ (filter_ne_perm _ ent hbnd hmem)
  refine ⟨⟨h.cap_pow, by simpa using h.len, ?_, ?_, ?_⟩, hperm⟩
  · intro i e he
    unfold bucketAt at he
    simp only [List.getElem?_set] at he
    change t.hash hashFunction e.1 = i
    by_cases hi : t.hash hashFunction key = i
    · rw [if_pos hi, if_pos (h.hash_lt key)] at he
      simp only [Option.getD_some] at he
      rw [hi] at he
      exact h.placed i e (List.mem_of_mem_filter he)
    · rw [if_neg hi] at he
      exact h.placed i e he
  · have hn := (hperm.map Prod.fst).nodup_iff.1 h.nodup
    simp only [List.map_cons, List.nodup_cons] at hn
    exact hn.2
  · have hl := hperm.length_eq
    simp only [List.length_cons] at hl
    simp only
    rw [h.count, hl]
    omega

theorem erase_present_spec [DecidableEq V] {hashFunction : K → Nat} {t : HashMap K V}
    (h : WF hashFunction t) (key : K) (ent : K × V)
    (hfind : t.findEntryByKey hashFunction key = some ent) :
    (t.erase hashFunction key).1 = true ∧
    WF hashFunction (t.erase hashFunction key).2 ∧
    t.data.flatten.Perm (ent :: (t.erase hashFunction key).2.data.flatten) ∧
    (t.erase hashFunction key).2.mapSize = t.mapSize - 1 := by
  rw [erase_present hashFunction t key ent hfind]
  obtain ⟨hwf, hperm⟩ := erase_removed_spec h key ent hfind
  obtain ⟨h1, h2, h3⟩ := resizeDown_spec hwf
  exact ⟨rfl, h1, hperm.trans (h2.symm.cons ent), h3⟩

theorem erase_WF [DecidableEq V] {hashFunction : K → Nat} {t : HashMap K V}
    (h : WF hashFunction t) (key : K) : WF hashFunction (t.erase hashFunction key).2 := by
  cases hfind : t.findEntryByKey hashFunction key with
  | none =>
    rw [erase_absent hashFunction t key hfind]
    exact h
  | some ent => exact (erase_present_spec h key ent hfind).2.1

end HashMap

namespace HashMap

variable {K V : Type}

/-! ## Iteration -/

theorem drop_flatten_eq (t : HashMap K V) (s : Nat) (hs : s < t.data.length) :
    (t.data.drop s).flatten = t.bucketAt s ++ (t.data.drop (s + 1)).flatten := by
  rw [List.drop_eq_getElem_cons hs]
  simp only [List.flatten_cons, bucketAt, List.getElem?_eq_getElem hs, Option.getD_some]

theorem setToAvailableBucket_spec (t : HashMap K V) (hlen : t.data.length = t.mapCapacity) :
    ∀ d s : Nat, s + d = t.mapCapacity →
      AtPos t (t.setToAvailableBucket (s : Int)) (t.data.drop s).flatten := by
  intro d
  induction d with
  | zero =>
    intro s hs
    left
    have h1 : s = t.mapCapacity := by omega
    subst h1
    constructor
    · rw [← hlen]; simp
    · have hnil : (List.range t.mapCapacity).drop t.mapCapacity = [] :=
        List.drop_eq_nil_of_le (by simp)
      unfold setToAvailableBucket
      simp only [Int.toNat_ofNat, hnil, List.find?_nil]
      rfl
  | succ d ih =>
    intro s hs
    have hlt : s < t.data.length := by omega
    have hr : s < (List.range t.mapCapacity).length := by simp; omega
    have hnext : t.setToAvailableBucket ((s : Int)) =
        if (t.bucketAt s).isEmpty = false then { bucket_index := s, entry_index := 0 }
        else t.setToAvailableBucket ((s + 1 : Nat) : Int) := by
      unfold setToAvailableBucket
      simp only [Int.toNat_ofNat]
      rw [List.drop_eq_getElem_cons hr, List.find?_cons]
      simp only [List.getElem_range]
      cases (t.bucketAt s).isEmpty <;> simp
    rw [hnext, drop_flatten_eq t s hlt]
    cases hb : t.bucketAt s with
    | nil =>
      simp only [List.isEmpty_nil, Bool.true_eq_false, if_false, List.nil_append]
      exact ih (s + 1) (by omega)
    | cons x xs =>
      simp only [List.isEmpty_cons, if_true]
      right
      refine ⟨s, 0, by simp, hlt, by simp [hb], by simp [hb]⟩

theorem begin_spec (t : HashMap K V) (hlen : t.data.length = t.mapCapacity) :
    AtPos t t.begin t.data.flatten := by
  have := setToAvailableBucket_spec t hlen t.mapCapacity 0 (by omega)
  simpa [begin] using this

theorem AtPos_nil (t : HashMap K V) (it : ConstIterator) (h : AtPos t it []) : it = t.end_ := by
  rcases h with ⟨_, h⟩ | ⟨b, e, _, _, he, hr⟩
  · exact h
  · exfalso
    have hl := congrArg List.length hr
    simp only [List.length_nil, List.length_append, List.length_drop] at hl
    omega

theorem AtPos_cons (t : HashMap K V) (hlen : t.data.length = t.mapCapacity)
    (it : ConstIterator) (x : K × V) (rest : List (K × V)) (h : AtPos t it (x :: rest)) :
    it ≠ t.end_ ∧ t.deref it = some x ∧ AtPos t (t.next it) rest := by
  rcases h with ⟨h, _⟩ | ⟨b, e, hit, hb, he, hr⟩
  · exact absurd h (List.cons_ne_nil _ _)
  · subst hit
    rw [List.drop_eq_getElem_cons he, List.cons_append, List.cons.injEq] at hr
    obtain ⟨hx, hrest⟩ := hr
    refine ⟨?_, ?_, ?_⟩
    · intro hend
      have := congrArg ConstIterator.bucket_index hend
      simp only [end_, ITERATOR_END_VALUE] at this
      omega
    · unfold deref
      simp only [Int.toNat_ofNat]
      rw [if_pos ⟨by omega, by omega⟩, List.getElem?_eq_getElem he, hx]
    · unfold next
      simp only [Int.toNat_ofNat]
      by_cases hl : ((t.bucketAt b).length : Int) = (e : Int) + 1
      · rw [if_pos hl]
        have hdrop : (t.bucketAt b).drop (e + 1) = [] := by
          apply List.drop_eq_nil_of_le
          omega
        rw [hrest, hdrop, List.nil_append]
        have hcast : ((b : Int) + 1) = ((b + 1 : Nat) : Int) := by simp
        rw [hcast]
        exact setToAvailableBucket_spec t hlen (t.mapCapacity - (b + 1)) (b + 1) (by omega)
      · rw [if_neg hl]
        right
        refine ⟨b, e + 1, by simp, hb, by omega, hrest⟩

theorem forEachFrom_spec (t : HashMap K V) (hlen : t.data.length = t.mapCapacity) :
    ∀ (rest : List (K × V)) (it : ConstIterator) (fuel : Nat),
      AtPos t it rest → rest.length ≤ fuel → t.forEachFrom fuel it = rest := by
  intro rest
  induction rest with
  | nil =>
    intro it fuel h _
    cases fuel with
    | zero => rfl
    | succ fuel =>
      unfold forEachFrom
      rw [if_pos (AtPos_nil t it h)]
  | cons x rest ih =>
    intro it fuel h hf
    cases fuel with
    | zero => simp at hf
    | succ fuel =>
      obtain ⟨h1, h2, h3⟩ := AtPos_cons t hlen it x rest h
      unfold forEachFrom
      rw [if_neg h1, h2]
      simp only
      rw [ih (t.next it) fuel h3 (by simpa using hf)]

/-- The range-based loop over a table visits the buckets in index order, each in chain
order. -/
theorem entries_eq_flatten (t : HashMap K V) (hlen : t.data.length = t.mapCapacity) :
    t.entries = t.data.flatten :=
  forEachFrom_spec t hlen _ _ _ (begin_spec t hlen) (Nat.le_succ _)

end HashMap

namespace HashMap

variable {K V : Type} [DecidableEq K] [DecidableEq V]

/-! ## `operator==` and `operator=` -/

theorem differsAt_eq_false_iff (hashFunction : K → Nat) (b : HashMap K V) (item : K × V) :
    differsAt hashFunction b item = false ↔ b.at_ hashFunction item.1 = .ok item.2 := by
  unfold differsAt containsKey at_
  cases b.findEntryByKey hashFunction item.1 with
  | none => simp
  | some ent =>
    simp only [Option.isSome_some, Bool.not_true, Bool.false_or, ne_eq, decide_not,
      Bool.not_eq_eq_eq_not, Bool.not_false, decide_eq_true_eq, Except.ok.injEq]

theorem beq_iff_mem {hashFunction : K → Nat} {a b : HashMap K V}
    (ha : WF hashFunction a) (hb : WF hashFunction b) :
    beq hashFunction a b = true ↔
      a.mapSize = b.mapSize ∧ (∀ item ∈ a.data.flatten, item ∈ b.data.flatten) ∧
        (∀ item ∈ b.data.flatten, item ∈ a.data.flatten) := by
  have hd : ∀ {s : HashMap K V}, WF hashFunction s → ∀ l : List (K × V),
      (l.any (differsAt hashFunction s) = true) ↔ ¬ ∀ item ∈ l, item ∈ s.data.flatten := by
    intro s hs l
    rw [List.any_eq_true]
    constructor
    · rintro ⟨x, hx, hdx⟩ hall
      have h1 := (hs.at_ok_iff x.1 x.2).2 (hall x hx)
      rw [← differsAt_eq_false_iff] at h1
      rw [h1] at hdx
      exact Bool.noConfusion hdx
    · intro hn
      by_contra hc
      apply hn
      intro x hx
      have h1 : differsAt hashFunction s x = false := by
        cases hdx : differsAt hashFunction s x with
        | false => rfl
        | true => exact absurd ⟨x, hx, hdx⟩ hc
      exact (hs.at_ok_iff x.1 x.2).1 ((differsAt_eq_false_iff hashFunction s x).1 h1)
  unfold beq
  rw [entries_eq_flatten a ha.len, entries_eq_flatten b hb.len]
  have ea := hd hb a.data.flatten
  have eb := hd ha b.data.flatten
  by_cases h1 : a.mapSize = b.mapSize
  · rw [if_neg (not_not.2 h1)]
    by_cases h2 : ∀ item ∈ a.data.flatten, item ∈ b.data.flatten
    · rw [if_neg (fun h => ea.1 h h2)]
      by_cases h3 : ∀ item ∈ b.data.flatten, item ∈ a.data.flatten
      · rw [if_neg (fun h => eb.1 h h3)]
        exact ⟨fun _ => ⟨h1, h2, h3⟩, fun _ => rfl⟩
      · rw [if_pos (eb.2 h3)]
        exact ⟨fun h => Bool.noConfusion h, fun h => absurd h.2.2 h3⟩
    · rw [if_pos (ea.2 h2)]
      exact ⟨fun h => Bool.noConfusion h, fun h => absurd h.2.1 h2⟩
  · rw [if_pos h1]
    exact ⟨fun h => Bool.noConfusion h, fun h => absurd h.1 h1⟩

theorem foldl_set_getElem? {α : Type} (src : List (List α)) :
    ∀ (m : Nat) (d : List (List α)) (j : Nat),
      ((List.range m).foldl (fun d i => d.set i ((src[i]?).getD [])) d).length = d.length ∧
      ((List.range m).foldl (fun d i => d.set i ((src[i]?).getD [])) d)[j]? =
        if j < m ∧ j < d.length then some ((src[j]?).getD []) else d[j]? := by
  intro m
  induction m with
  | zero =>
    intro d j
    simp
  | succ m ih =>
    intro d j
    rw [List.range_succ, List.foldl_append]
    simp only [List.foldl_cons, List.foldl_nil, List.length_set, List.getElem?_set]
    refine ⟨(ih d j).1, ?_⟩
    rw [(ih d j).2, (ih d m).1]
    by_cases hjm : m = j
    · subst hjm
      by_cases hl : m < d.length
      · simp [hl]
      · simp [hl, List.getElem?_eq_none (Nat.le_of_not_lt hl)]
    · rw [if_neg hjm]
      by_cases hj : j < m
      · simp [hj, Nat.lt_succ_of_lt hj]
      · have : ¬ j < m + 1 := by omega
        simp [hj, this]

theorem foldl_set_eq {α : Type} (src d : List (List α)) (h : d.length = src.length) :
    (List.range d.length).foldl (fun d i => d.set i ((src[i]?).getD [])) d = src := by
  apply List.ext_getElem?
  intro j
  rw [(foldl_set_getElem? src d.length d j).2]
  by_cases hj : j < d.length
  · simp [hj, List.getElem?_eq_getElem (h ▸ hj)]
  · simp only [hj, and_self, if_false]
    rw [List.getElem?_eq_none (Nat.le_of_not_lt hj),
      List.getElem?_eq_none (h ▸ Nat.le_of_not_lt hj)]

/-- Assignment either returns early and leaves the destination as it is, or makes it the
source, field by field. -/
theorem assign_eq {hashFunction : K → Nat} {a b : HashMap K V}
    (ha : WF hashFunction a) (hb : WF hashFunction b) :
    a.assign hashFunction b = if beq hashFunction a b then a else b := by
  unfold assign
  by_cases he : beq hashFunction a b = true
  · rw [if_pos he, if_pos he]
  · rw [if_neg he, if_neg he]
    by_cases hc : a.mapCapacity = b.mapCapacity
    · simp only [ne_eq, hc, not_true_eq_false, if_false]
      have h1 := foldl_set_eq b.data a.data (by rw [ha.len, hb.len, hc])
      rw [ha.len, hc] at h1
      unfold bucketAt
      rw [h1]
    · simp only [ne_eq, hc, not_false_eq_true, if_true]
      have h1 := foldl_set_eq b.data (init b.mapCapacity 0 : HashMap K V).data
        (by simp [init, hb.len])
      have h2 : (init b.mapCapacity 0 : HashMap K V).data.length = b.mapCapacity := by
        simp [init]
      rw [h2] at h1
      unfold bucketAt
      have h3 : (init b.mapCapacity 0 : HashMap K V).mapCapacity = b.mapCapacity := rfl
      rw [h3, h1]

theorem assign_WF {hashFunction : K → Nat} {a b : HashMap K V}
    (ha : WF hashFunction a) (hb : WF hashFunction b) :
    WF hashFunction (a.assign hashFunction b) := by
  rw [assign_eq ha hb]
  split
  · exact ha
  · exact hb

omit [DecidableEq V] [DecidableEq K] in
theorem WF_new (hashFunction : K → Nat) : WF hashFunction (new : HashMap K V) :=
  WF_init hashFunction 4

omit [DecidableEq V] [DecidableEq K] in
theorem clear_WF {hashFunction : K → Nat} {t : HashMap K V} (h : WF hashFunction t) :
    WF hashFunction t.clear := by
  obtain ⟨n, hn⟩ := h.cap_pow
  unfold clear
  rw [hn]
  exact WF_init hashFunction n

omit [DecidableEq V] in
theorem indexOperator_state [Inhabited V] (hashFunction : K → Nat) (t : HashMap K V) (key : K) :
    (t.indexOperator hashFunction key).2 =
      if t.containsKey hashFunction key then t else (t.insert hashFunction key default).2 := by
  unfold indexOperator containsKey
  cases t.findEntryByKey hashFunction key <;> rfl

omit [DecidableEq V] in
theorem indexOperator_WF [Inhabited V] {hashFunction : K → Nat} {t : HashMap K V}
    (h : WF hashFunction t) (key : K) : WF hashFunction (t.indexOperator hashFunction key).2 := by
  rw [indexOperator_state]
  split
  · exact h
  · exact insert_WF h key default

omit [DecidableEq V] in
theorem foldl_insertEntry_replace_WF (hashFunction : K → Nat) (ps : List (K × V)) :
    ∀ t : HashMap K V, WF hashFunction t →
      WF hashFunction
        (ps.foldl (fun t kv => (t.insertEntry hashFunction kv.1 kv.2 true).2) t) := by
  induction ps with
  | nil => intro t h; exact h
  | cons p ps ih =>
    intro t h
    exact ih _ (insertEntry_WF h p.1 p.2 true)

omit [DecidableEq V] in
theorem ofVectors_WF (hashFunction : K → Nat) (keys : List K) (values : List V)
    (t : HashMap K V) (h : ofVectors hashFunction keys values = .ok t) :
    WF hashFunction t := by
  unfold ofVectors at h
  split at h
  · exact Except.noConfusion h
  · injection h with h
    rw [← h]
    exact (resizeUp_spec
      (foldl_insertEntry_replace_WF hashFunction (keys.zip values) new (WF_new hashFunction))).1

/-- Every reachable state satisfies the representation invariant. -/
theorem Reachable.wf [Inhabited V] {hashFunction : K → Nat} {t : HashMap K V}
    (h : Reachable hashFunction t) : WF hashFunction t := by
  induction h with
  | new => exact WF_new hashFunction
  | ofVectors keys values t h => exact ofVectors_WF hashFunction keys values t h
  | copy s _ ih => exact assign_WF (WF_new hashFunction) ih
  | insert t key value _ ih => exact insert_WF ih key value
  | indexOperator t key _ ih => exact indexOperator_WF ih key
  | erase t key _ ih => exact erase_WF ih key
  | clear t _ ih => exact clear_WF ih
  | assign a b _ _ iha ihb => exact assign_WF iha ihb
  | insertion t key value _ ih => exact insertEntry_WF ih key value true

end HashMap

namespace HashMap

variable {K V : Type} [DecidableEq K] [DecidableEq V]

/-! ## Lookups after `insert` and `erase` -/

theorem erase_present_containsKey {hashFunction : K → Nat} {t : HashMap K V}
    (h : WF hashFunction t) (key : K) (ent : K × V)
    (hfind : t.findEntryByKey hashFunction key = some ent) (k : K) :
    (t.erase hashFunction key).2.containsKey hashFunction k =
      (!decide (k = key) && t.containsKey hashFunction k) := by
  obtain ⟨_, hwf, hperm, _⟩ := erase_present_spec h key ent hfind
  have hfst := findEntryByKey_fst hashFunction t key ent hfind
  by_cases hk : k = key
  · subst hk
    simp only [decide_True, Bool.not_true, Bool.false_and]
    rw [containsKey_eq_false_iff, hwf.find_none_iff]
    have hn := (hperm.map Prod.fst).nodup_iff.1 h.nodup
    simp only [List.map_cons, List.nodup_cons] at hn
    rw [hfst] at hn
    exact hn.1
  · simp only [hk, decide_False, Bool.not_false, Bool.true_and]
    apply containsKey_congr hwf h
    intro v
    rw [hperm.mem_iff, List.mem_cons]
    constructor
    · exact Or.inr
    · rintro (he | he)
      · exact absurd (by rw [← hfst, ← he]) hk
      · exact he

theorem shrunkTable_reachable : Reachable id shrunkTable :=
  Reachable.erase _ _ (Reachable.insert _ _ _ Reachable.new)

end HashMap

namespace HashMap

variable {K V : Type} [DecidableEq K] [DecidableEq V]

/-! ## `containsKey` and `size` after each mutating step -/

omit [DecidableEq V] in
theorem findEntryByKey_new (hashFunction : K → Nat) (key : K) :
    (new : HashMap K V).findEntryByKey hashFunction key = none := by
  unfold findEntryByKey new
  rw [init_bucketAt]
  rfl

omit [DecidableEq V] in
theorem containsKey_new (hashFunction : K → Nat) (key : K) :
    (new : HashMap K V).containsKey hashFunction key = false := by
  rw [containsKey_eq_false_iff]
  exact findEntryByKey_new hashFunction key

omit [DecidableEq V] in
theorem containsKey_of_keys_perm {hashFunction : K → Nat} {t u : HashMap K V}
    (ht : WF hashFunction t) (hu : WF hashFunction u)
    (h : (t.data.flatten.map Prod.fst).Perm (u.data.flatten.map Prod.fst)) (k : K) :
    t.containsKey hashFunction k = u.containsKey hashFunction k := by
  rw [Bool.eq_iff_iff, ht.containsKey_iff, hu.containsKey_iff]
  exact h.mem_iff

omit [DecidableEq V] in
theorem insertEntry_containsKey {hashFunction : K → Nat} {t : HashMap K V}
    (h : WF hashFunction t) (key : K) (value : V) (r : Bool) (k : K) :
    (t.insertEntry hashFunction key value r).2.containsKey hashFunction k =
      (decide (k = key) || t.containsKey hashFunction k) := by
  have hwf := insertEntry_WF h key value r
  cases hfind : t.findEntryByKey hashFunction key with
  | none =>
    have hperm := (insertEntry_absent_flatten h key value r hfind).map Prod.fst
    rw [Bool.eq_iff_iff, hwf.containsKey_iff, hperm.mem_iff]
    simp only [List.map_append, List.map_cons, List.map_nil, List.mem_append,
      List.mem_singleton, Bool.or_eq_true, decide_eq_true_eq, h.containsKey_iff]
    exact Or.comm
  | some ent =>
    have hc : t.containsKey hashFunction key = true :=
      (containsKey_eq_true_iff hashFunction t key).2 ⟨ent, hfind⟩
    have hsame : (t.insertEntry hashFunction key value r).2.containsKey hashFunction k =
        t.containsKey hashFunction k := by
      cases r with
      | false => rw [(insertEntry_present hashFunction t key value ent hfind).1]
      | true =>
        apply containsKey_of_keys_perm hwf h
        rw [insertEntry_replace_keys h key value ent hfind]
    rw [hsame]
    by_cases hk : k = key
    · subst hk
      simp [hc]
    · simp [hk]

omit [DecidableEq V] in
theorem insertEntry_size (hashFunction : K → Nat) (t : HashMap K V) (key : K) (value : V)
    (r : Bool) :
    (t.insertEntry hashFunction key value r).2.mapSize =
      if t.containsKey hashFunction key then t.mapSize else t.mapSize + 1 := by
  cases hfind : t.findEntryByKey hashFunction key with
  | none =>
    rw [insertEntry_absent_size hashFunction t key value r hfind,
      if_neg (by rw [(containsKey_eq_false_iff hashFunction t key).2 hfind]; simp)]
  | some ent =>
    rw [if_pos ((containsKey_eq_true_iff hashFunction t key).2 ⟨ent, hfind⟩)]
    cases r with
    | false => rw [(insertEntry_present hashFunction t key value ent hfind).1]
    | true => rw [(insertEntry_present hashFunction t key value ent hfind).2]

omit [DecidableEq V] in
theorem resizeUp_containsKey {hashFunction : K → Nat} {t : HashMap K V}
    (h : WF hashFunction t) (k : K) :
    (t.resizeUp hashFunction).containsKey hashFunction k = t.containsKey hashFunction k := by
  obtain ⟨h1, h2, _⟩ := resizeUp_spec h
  exact containsKey_of_keys_perm h1 h (h2.map Prod.fst) k

theorem erase_containsKey {hashFunction : K → Nat} {t : HashMap K V}
    (h : WF hashFunction t) (key : K) (k : K) :
    (t.erase hashFunction key).2.containsKey hashFunction k =
      (!decide (k = key) && t.containsKey hashFunction k) := by
  cases hfind : t.findEntryByKey hashFunction key with
  | none =>
    rw [erase_absent hashFunction t key hfind]
    by_cases hk : k = key
    · subst hk
      simp [(containsKey_eq_false_iff hashFunction t k).2 hfind]
    · simp [hk]
  | some ent => exact erase_present_containsKey h key ent hfind k

theorem erase_size {hashFunction : K → Nat} {t : HashMap K V}
    (h : WF hashFunction t) (key : K) :
    (t.erase hashFunction key).2.size =
      if t.containsKey hashFunction key then t.size - 1 else t.size := by
  cases hfind : t.findEntryByKey hashFunction key with
  | none =>
    rw [erase_absent hashFunction t key hfind,
      if_neg (by rw [(containsKey_eq_false_iff hashFunction t key).2 hfind]; simp)]
  | some ent =>
    rw [if_pos ((containsKey_eq_true_iff hashFunction t key).2 ⟨ent, hfind⟩)]
    exact (erase_present_spec h key ent hfind).2.2.2

omit [DecidableEq V] in
/-- C2 (no overwrite on insert): inserting a key the table already contains returns false
and returns the table itself, so capacity, count and every bucket are unchanged, no resize
happens and `at` of the key still returns the old value.  This holds in every state, in
particular in every reachable one. -/
theorem insert_present_unchanged (hashFunction : K → Nat) (t : HashMap K V) (key : K)
    (value : V) (hpresent : t.containsKey hashFunction key = true) :
    t.insert hashFunction key value = (false, t) ∧
    (t.insert hashFunction key value).2.capacity = t.capacity ∧
    (t.insert hashFunction key value).2.size = t.size ∧
    (t.insert hashFunction key value).2.data = t.data ∧
    (t.insert hashFunction key value).2.at_ hashFunction key = t.at_ hashFunction key := by
  obtain ⟨ent, hfind⟩ := (containsKey_eq_true_iff hashFunction t key).1 hpresent
  rw [insert_present hashFunction t key value ent hfind]
  exact ⟨rfl, rfl, rfl, rfl, rfl⟩

/-- Witness of C2, at the reachable table holding 1, 2, 3: inserting key 2 again with another value
is refused and `at` still returns 20. -/
theorem insert_present_unchanged_witness :
    threeKeys.containsKey id 2 = true ∧
    (threeKeys.insert id 2 99 = (false, threeKeys) ∧
     (threeKeys.insert id 2 99).2.capacity = threeKeys.capacity ∧
     (threeKeys.insert id 2 99).2.size = threeKeys.size ∧
     (threeKeys.insert id 2 99).2.data = threeKeys.data ∧
     (threeKeys.insert id 2 99).2.at_ id 2 = threeKeys.at_ id 2) ∧
    threeKeys.at_ id 2 = .ok 20 :=
  ⟨by decide, insert_present_unchanged id threeKeys 2 99 (by decide), rfl⟩

end HashMap

namespace HashMap

variable {K V : Type} [DecidableEq K] [DecidableEq V]

/-- The concrete scenario of the spec, for whatever `std::hash<std::string>` is: the table
constructed from the keys a, b, c and the values 1, 2, 3 has size 3; after `erase("a")`
and `erase("b")` its size is 1 and it does not contain a. -/
theorem abc_scenario (hashFunction : String → Nat) :
    ∃ d : HashMap String String,
      ofVectors hashFunction ["a", "b", "c"] ["1", "2", "3"] = .ok d ∧ d.size = 3 ∧
      ((d.erase hashFunction "a").2.erase hashFunction "b").2.size = 1 ∧
      ((d.erase hashFunction "a").2.erase hashFunction "b").2.containsKey hashFunction "a" =
        false := by
  have h0 : WF hashFunction (new : HashMap String String) := WF_new hashFunction
  have h1 := insertEntry_WF h0 "a" "1" true
  have h2 := insertEntry_WF h1 "b" "2" true
  have h3 := insertEntry_WF h2 "c" "3" true
  have h4 := (resizeUp_spec h3).1
  have h5 := erase_WF h4 "a"
  have hsize : (resizeUp hashFunction (insertEntry hashFunction (insertEntry hashFunction
      (insertEntry hashFunction (new : HashMap String String) "a" "1" true).2
        "b" "2" true).2 "c" "3" true).2).size = 3 := by
    simp only [size, (resizeUp_spec h3).2.2, insertEntry_size, insertEntry_containsKey h1,
      insertEntry_containsKey h0, containsKey_new]
    decide
  have hc : ∀ k : String, (resizeUp hashFunction (insertEntry hashFunction
      (insertEntry hashFunction
        (insertEntry hashFunction (new : HashMap String String) "a" "1" true).2
        "b" "2" true).2 "c" "3" true).2).containsKey hashFunction k =
      (decide (k = "c") || (decide (k = "b") || (decide (k = "a") || false))) := by
    intro k
    rw [resizeUp_containsKey h3, insertEntry_containsKey h2, insertEntry_containsKey h1,
      insertEntry_containsKey h0, containsKey_new]
  have hd : ofVectors hashFunction ["a", "b", "c"] ["1", "2", "3"] =
      .ok (resizeUp hashFunction (insertEntry hashFunction (insertEntry hashFunction
        (insertEntry hashFunction (new : HashMap String String) "a" "1" true).2
          "b" "2" true).2 "c" "3" true).2) := rfl
  refine ⟨_, hd, hsize, ?_, ?_⟩
  · rw [erase_size h5, erase_containsKey h4, hc, erase_size h4, hc, hsize]
    decide
  · rw [erase_containsKey h5, erase_containsKey h4, hc]
    decide

theorem abcTable_reachable : Reachable stringHash abcTable :=
  Reachable.ofVectors ["a", "b", "c"] ["1", "2", "3"] abcTable rfl

end HashMap

namespace HashMap

variable {K V : Type} [DecidableEq K] [DecidableEq V]

theorem threeKeys_reachable : Reachable id threeKeys :=
  Reachable.insert _ _ _ (Reachable.insert _ _ _ (Reachable.insert _ _ _ Reachable.new))

end HashMap

namespace HashMap

variable {K V : Type} [DecidableEq K] [DecidableEq V]

/-- C7 (equality is equality of the key-to-value mapping): for reachable tables `a` and
`b`, whatever their capacities and bucket orders, `a == b` is true iff every key is
contained in both or in neither and `at` gives the same result in both. -/
theorem equality_iff_same_mapping [Inhabited V] (hashFunction : K → Nat) (a b : HashMap K V)
    (ha : Reachable hashFunction a) (hb : Reachable hashFunction b) :
    beq hashFunction a b = true ↔
      ∀ k : K, a.containsKey hashFunction k = b.containsKey hashFunction k ∧
        a.at_ hashFunction k = b.at_ hashFunction k := by
  have wa := ha.wf
  have wb := hb.wf
  rw [beq_iff_mem wa wb]
  constructor
  · rintro ⟨_, h2, h3⟩ k
    have hiff : ∀ v, (k, v) ∈ a.data.flatten ↔ (k, v) ∈ b.data.flatten :=
      fun v => ⟨h2 (k, v), h3 (k, v)⟩
    exact ⟨containsKey_congr wa wb k hiff, at_congr wa wb k hiff⟩
  · intro h
    have hiff : ∀ item : K × V, item ∈ a.data.flatten ↔ item ∈ b.data.flatten := by
      rintro ⟨k, v⟩
      rw [← wa.at_ok_iff, ← wb.at_ok_iff, (h k).2]
    refine ⟨?_, fun item => (hiff item).1, fun item => (hiff item).2⟩
    have hperm := (List.perm_ext_iff_of_nodup (List.Nodup.of_map Prod.fst wa.nodup)
      (List.Nodup.of_map Prod.fst wb.nodup)).2 hiff
    rw [wa.count, wb.count, hperm.length_eq]

/-- Witness of C7, on two tables that hold the same pair at capacities 16 and 4 (equal), and on two
tables that differ in one value (unequal). -/
theorem equality_iff_same_mapping_witness :
    oneKeyWide.capacity = 16 ∧ oneKeyNarrow.capacity = 4 ∧
    beq id oneKeyWide oneKeyNarrow = true ∧
    (beq id oneKeyWide oneKeyNarrow = true ↔
      ∀ k : Nat, oneKeyWide.containsKey id k = oneKeyNarrow.containsKey id k ∧
        oneKeyWide.at_ id k = oneKeyNarrow.at_ id k) ∧
    beq id oneKeyWide oneKeyOther = false :=
  ⟨by decide, by decide, by decide,
    equality_iff_same_mapping id oneKeyWide oneKeyNarrow
      (Reachable.insert _ _ _ Reachable.new)
      (Reachable.erase _ _ (Reachable.insert _ _ _ (Reachable.insert _ _ _ Reachable.new))),
    by decide⟩

end HashMap

namespace HashMap

variable {K V : Type} [DecidableEq K] [DecidableEq V]

end HashMap

namespace HashMap

variable {K V : Type} [DecidableEq K]

/-! ## Values after `insertEntry` with the replace flag -/

theorem mem_setSecond (key : K) (value : V) (b : List (K × V))
    (hnd : (b.map Prod.fst).Nodup) (x : K × V) :
    x ∈ setSecond key value b ↔
      (x.1 ≠ key ∧ x ∈ b) ∨ (x = (key, value) ∧ key ∈ b.map Prod.fst) := by
  induction b with
  | nil => simp [setSecond]
  | cons e b ih =>
    simp only [List.map_cons, List.nodup_cons] at hnd
    unfold setSecond
    by_cases he : e.1 = key
    · rw [if_pos he]
      have hkb : key ∉ b.map Prod.fst := he ▸ hnd.1
      constructor
      · intro hx
        rcases List.mem_cons.1 hx with hx | hx
        · right
          exact ⟨by rw [hx, he], by simp [he]⟩
        · left
          refine ⟨?_, List.mem_cons_of_mem _ hx⟩
          intro hk
          exact hkb (hk ▸ List.mem_map_of_mem Prod.fst hx)
      · rintro (⟨hne, hx⟩ | ⟨hx, _⟩)
        · rcases List.mem_cons.1 hx with hx | hx
          · exact absurd (by rw [hx, he]) hne
          · exact List.mem_cons_of_mem _ hx
        · rw [hx, he]
          exact List.mem_cons_self _ _
    · rw [if_neg he]
      have hke : ¬ key = e.1 := fun h => he h.symm
      simp only [List.mem_cons, ih hnd.2, List.map_cons, hke, false_or]
      constructor
      · rintro (hx | ⟨hne, hx⟩ | ⟨hx, hk⟩)
        · exact Or.inl ⟨by rw [hx]; exact he, Or.inl hx⟩
        · exact Or.inl ⟨hne, Or.inr hx⟩
        · exact Or.inr ⟨hx, hk⟩
      · rintro (⟨hne, hx | hx⟩ | ⟨hx, hk⟩)
        · exact Or.inl hx
        · exact Or.inr (Or.inl ⟨hne, hx⟩)
        · exact Or.inr (Or.inr ⟨hx, hk⟩)

omit [DecidableEq K] in
theorem bucketAt_set (t : HashMap K V) (index : Nat) (b : List (K × V)) (size : Int)
    (hi : index < t.data.length) (i : Nat) :
    ({ t with data := t.data.set index b, mapSize := size } : HashMap K V).bucketAt i =
      if index = i then b else t.bucketAt i := by
  unfold bucketAt
  simp only [List.getElem?_set]
  by_cases h : index = i
  · rw [if_pos h, if_pos hi, if_pos h]
    rfl
  · rw [if_neg h, if_neg h]

omit [DecidableEq K] in
theorem mem_flatten_iff_bucketAt (t : HashMap K V) (x : K × V) :
    x ∈ t.data.flatten ↔ ∃ i, x ∈ t.bucketAt i := by
  constructor
  · intro h
    obtain ⟨i, _, hi⟩ := exists_getD_of_mem_flatten t.data x h
    exact ⟨i, hi⟩
  · rintro ⟨i, hi⟩
    exact mem_flatten_of_mem_bucketAt t i x hi

/-- The entries after `insertEntry(key, value, true)`: the pair `(key, value)` and the old
entries under the other keys. -/
theorem insertEntry_true_mem {hashFunction : K → Nat} {t : HashMap K V}
    (h : WF hashFunction t) (key : K) (value : V) (x : K × V) :
    x ∈ (t.insertEntry hashFunction key value true).2.data.flatten ↔
      (x.1 ≠ key ∧ x ∈ t.data.flatten) ∨ x = (key, value) := by
  cases hfind : t.findEntryByKey hashFunction key with
  | none =>
    rw [(insertEntry_absent_flatten h key value true hfind).mem_iff]
    simp only [List.mem_append, List.mem_singleton]
    constructor
    · rintro (hx | hx)
      · left
        refine ⟨?_, hx⟩
        intro hk
        exact (h.find_none_iff key).1 hfind (hk ▸ List.mem_map_of_mem Prod.fst hx)
      · exact Or.inr hx
    · rintro (⟨_, hx⟩ | hx)
      · exact Or.inl hx
      · exact Or.inr hx
  | some ent =>
    have hkey : key ∈ (t.bucketAt (t.hash hashFunction key)).map Prod.fst :=
      List.mem_map.2 ⟨ent, findEntryByKey_mem hashFunction t key ent hfind,
        findEntryByKey_fst hashFunction t key ent hfind⟩
    have hb : ∀ i, ((t.insertEntry hashFunction key value true).2).bucketAt i =
        if t.hash hashFunction key = i
          then setSecond key value (t.bucketAt (t.hash hashFunction key))
          else t.bucketAt i := by
      intro i
      rw [(insertEntry_present hashFunction t key value ent hfind).2]
      exact bucketAt_set t _ _ t.mapSize (h.hash_lt key) i
    rw [mem_flatten_iff_bucketAt, mem_flatten_iff_bucketAt]
    constructor
    · rintro ⟨i, hi⟩
      rw [hb i] at hi
      by_cases hidx : t.hash hashFunction key = i
      · rw [if_pos hidx, mem_setSecond key value _ (h.bucket_nodup _)] at hi
        rcases hi with ⟨hne, hx⟩ | ⟨hx, _⟩
        · exact Or.inl ⟨hne, _, hx⟩
        · exact Or.inr hx
      · rw [if_neg hidx] at hi
        left
        refine ⟨?_, i, hi⟩
        intro hk
        exact hidx (hk ▸ h.placed i x hi)
    · rintro (⟨hne, i, hi⟩ | hx)
      · refine ⟨i, ?_⟩
        rw [hb i]
        by_cases hidx : t.hash hashFunction key = i
        · rw [if_pos hidx, mem_setSecond key value _ (h.bucket_nodup _)]
          left
          exact ⟨hne, hidx ▸ hi⟩
        · rw [if_neg hidx]
          exact hi
      · refine ⟨t.hash hashFunction key, ?_⟩
        rw [hb, if_pos rfl, mem_setSecond key value _ (h.bucket_nodup _)]
        exact Or.inr ⟨hx, hkey⟩

theorem insertEntry_true_at {hashFunction : K → Nat} {t : HashMap K V}
    (h : WF hashFunction t) (key : K) (value : V) (k : K) :
    (t.insertEntry hashFunction key value true).2.at_ hashFunction k =
      if k = key then .ok value else t.at_ hashFunction k := by
  have hwf := insertEntry_WF h key value true
  by_cases hk : k = key
  · subst hk
    rw [if_pos rfl, hwf.at_ok_iff, insertEntry_true_mem h]
    exact Or.inr rfl
  · rw [if_neg hk]
    apply at_congr hwf h
    intro v
    rw [insertEntry_true_mem h]
    constructor
    · rintro (⟨_, hx⟩ | hx)
      · exact hx
      · exact absurd (congrArg Prod.fst hx) hk
    · intro hx
      exact Or.inl ⟨hk, hx⟩

end HashMap

namespace HashMap

variable {K V : Type} [DecidableEq K]

/-! ## A sequence of `insertEntry(key, value, true)` steps -/

theorem foldl_insertEntry_true_containsKey (hashFunction : K → Nat) (ps : List (K × V)) :
    ∀ t : HashMap K V, WF hashFunction t → ∀ k : K,
      ((ps.foldl (fun t kv => (t.insertEntry hashFunction kv.1 kv.2 true).2) t).containsKey
        hashFunction k = true ↔
        k ∈ ps.map Prod.fst ∨ t.containsKey hashFunction k = true) := by
  induction ps with
  | nil => intro t _ k; simp
  | cons p ps ih =>
    intro t h k
    rw [List.foldl_cons, ih _ (insertEntry_WF h p.1 p.2 true) k, insertEntry_containsKey h]
    simp only [List.map_cons, List.mem_cons, Bool.or_eq_true, decide_eq_true_eq]
    constructor
    · rintro (h1 | h1 | h1)
      · exact Or.inl (Or.inr h1)
      · exact Or.inl (Or.inl h1)
      · exact Or.inr h1
    · rintro ((h1 | h1) | h1)
      · exact Or.inr (Or.inl h1)
      · exact Or.inl h1
      · exact Or.inr (Or.inr h1)

theorem foldl_insertEntry_true_at_other (hashFunction : K → Nat) (ps : List (K × V)) :
    ∀ t : HashMap K V, WF hashFunction t → ∀ k : K, k ∉ ps.map Prod.fst →
      (ps.foldl (fun t kv => (t.insertEntry hashFunction kv.1 kv.2 true).2) t).at_
        hashFunction k = t.at_ hashFunction k := by
  induction ps with
  | nil => intro t _ k _; rfl
  | cons p ps ih =>
    intro t h k hk
    simp only [List.map_cons, List.mem_cons, not_or] at hk
    rw [List.foldl_cons, ih _ (insertEntry_WF h p.1 p.2 true) k hk.2,
      insertEntry_true_at h, if_neg hk.1]

theorem foldl_insertEntry_true_at_last (hashFunction : K → Nat) (ps : List (K × V)) :
    ∀ t : HashMap K V, WF hashFunction t → ∀ (i : Nat) (hi : i < ps.length),
      (∀ (j : Nat) (hj : j < ps.length), i < j → ps[j].1 ≠ ps[i].1) →
      (ps.foldl (fun t kv => (t.insertEntry hashFunction kv.1 kv.2 true).2) t).at_
        hashFunction ps[i].1 = .ok ps[i].2 := by
  induction ps with
  | nil => intro t _ i hi; exact absurd hi (Nat.not_lt_zero i)
  | cons p ps ih =>
    intro t h i hi hlast
    have hwf := insertEntry_WF h p.1 p.2 true
    cases i with
    | zero =>
      have hnot : p.1 ∉ ps.map Prod.fst := by
        intro hm
        obtain ⟨q, hq, hqk⟩ := List.mem_map.1 hm
        obtain ⟨j, hj, hjq⟩ := List.mem_iff_getElem.1 hq
        have := hlast (j + 1) (by simpa using hj) (Nat.succ_pos j)
        simp only [List.getElem_cons_succ, List.getElem_cons_zero] at this
        exact this (by rw [hjq, hqk])
      simp only [List.getElem_cons_zero]
      rw [List.foldl_cons, foldl_insertEntry_true_at_other hashFunction ps _ hwf p.1 hnot,
        insertEntry_true_at h, if_pos rfl]
    | succ i =>
      simp only [List.getElem_cons_succ]
      rw [List.foldl_cons]
      apply ih _ hwf i (by simpa using hi)
      intro j hj hij
      have := hlast (j + 1) (by simpa using hj) (by omega)
      simpa using this

theorem foldl_insertEntry_true_size (hashFunction : K → Nat) (ps : List (K × V))
    (t : HashMap K V) (h : WF hashFunction t) :
    (ps.foldl (fun t kv => (t.insertEntry hashFunction kv.1 kv.2 true).2) t).size =
      ((t.data.flatten.map Prod.fst ++ ps.map Prod.fst).toFinset.card : Int) := by
  have hwf := foldl_insertEntry_replace_WF hashFunction ps t h
  have hset : ((ps.foldl (fun t kv => (t.insertEntry hashFunction kv.1 kv.2 true).2)
      t).data.flatten.map Prod.fst).toFinset =
      (t.data.flatten.map Prod.fst ++ ps.map Prod.fst).toFinset := by
    ext k
    rw [List.mem_toFinset, List.mem_toFinset, ← hwf.containsKey_iff,
      foldl_insertEntry_true_containsKey hashFunction ps t h k, h.containsKey_iff,
      List.mem_append]
    exact Or.comm
  unfold size
  rw [hwf.count, ← hset, List.toFinset_card_of_nodup hwf.nodup, List.length_map]

theorem resizeUp_at {hashFunction : K → Nat} {t : HashMap K V}
    (h : WF hashFunction t) (k : K) :
    (t.resizeUp hashFunction).at_ hashFunction k = t.at_ hashFunction k := by
  obtain ⟨h1, h2, _⟩ := resizeUp_spec h
  exact at_congr h1 h k (fun v => h2.mem_iff)

/-- The table the dual-sequence constructor builds from sequences of equal length. -/
theorem ofVectors_eq (hashFunction : K → Nat) (keys : List K) (values : List V)
    (hlen : keys.length = values.length) :
    ofVectors hashFunction keys values =
      .ok (((keys.zip values).foldl
        (fun t kv => (t.insertEntry hashFunction kv.1 kv.2 true).2) new).resizeUp
          hashFunction) := by
  unfold ofVectors
  rw [if_neg (not_not.2 hlen)]
  rfl

theorem ofVectors_spec (hashFunction : K → Nat) (keys : List K) (values : List V)
    (hlen : keys.length = values.length) :
    ∃ t : HashMap K V, ofVectors hashFunction keys values = .ok t ∧
      WF hashFunction t ∧
      (∀ k : K, t.containsKey hashFunction k = true ↔ k ∈ keys) ∧
      (∀ (i : Nat) (h1 : i < keys.length) (h2 : i < values.length),
        (∀ (j : Nat) (hj : j < keys.length), i < j → keys[j] ≠ keys[i]) →
        t.at_ hashFunction keys[i] = .ok values[i]) ∧
      t.size = (keys.toFinset.card : Int) := by
  have hnew : WF hashFunction (new : HashMap K V) := WF_new hashFunction
  have hwf := foldl_insertEntry_replace_WF hashFunction (keys.zip values) new hnew
  have hkeys : (keys.zip values).map Prod.fst = keys :=
    List.map_fst_zip keys values (Nat.le_of_eq hlen)
  refine ⟨_, ofVectors_eq hashFunction keys values hlen, (resizeUp_spec hwf).1, ?_, ?_, ?_⟩
  · intro k
    rw [resizeUp_containsKey hwf,
      foldl_insertEntry_true_containsKey hashFunction _ new hnew k, hkeys, containsKey_new]
    simp
  · intro i h1 h2 hlast
    have hi : i < (keys.zip values).length := by
      rw [List.length_zip]
      omega
    have hget : ∀ (j : Nat) (hj : j < (keys.zip values).length) (hk : j < keys.length)
        (hv : j < values.length), (keys.zip values)[j] = (keys[j], values[j]) := by
      intro j hj hk hv
      exact List.getElem_zip
    have := foldl_insertEntry_true_at_last hashFunction (keys.zip values) new hnew i hi
      (by
        intro j hj hij
        have hjk : j < keys.length := by rw [List.length_zip] at hj; omega
        have hjv : j < values.length := by rw [List.length_zip] at hj; omega
        rw [hget j hj hjk hjv, hget i hi h1 h2]
        exact hlast j hjk hij)
    rw [hget i hi h1 h2] at this
    rw [resizeUp_at hwf]
    exact this
  · have hs := (resizeUp_spec hwf).2.2
    have := foldl_insertEntry_true_size hashFunction (keys.zip values) new hnew
    unfold size at this ⊢
    rw [hs, this, hkeys]
    have hnil : (new : HashMap K V).data.flatten = [] := init_flatten _ _
    rw [hnil]
    rfl

end HashMap

namespace HashMap

variable {K V : Type} [DecidableEq K] [DecidableEq V]

omit [DecidableEq V] in
/-- C11 (dual-sequence construction): the constructor throws `std::length_error` iff the
two sequences differ in length; when they have the same length it returns a table that
contains exactly the keys occurring in `keys`, maps `keys[i]` to `values[i]` whenever `i`
is the last index of that key, and has as size the number of distinct keys. -/
theorem dual_sequence_construction (hashFunction : K → Nat) (keys : List K)
    (values : List V) :
    (ofVectors hashFunction keys values = .error Error.length_error ↔
      keys.length ≠ values.length) ∧
    (keys.length = values.length →
      ∃ t : HashMap K V, ofVectors hashFunction keys values = .ok t ∧
        (∀ k : K, t.containsKey hashFunction k = true ↔ k ∈ keys) ∧
        (∀ (i : Nat) (h1 : i < keys.length) (h2 : i < values.length),
          (∀ (j : Nat) (hj : j < keys.length), i < j → keys[j] ≠ keys[i]) →
          t.at_ hashFunction keys[i] = .ok values[i]) ∧
        t.size = (keys.toFinset.card : Int)) := by
  constructor
  · constructor
    · intro herr hlen
      rw [ofVectors_eq hashFunction keys values hlen] at herr
      exact Except.noConfusion herr
    · intro hne
      unfold ofVectors
      rw [if_pos hne]
  · intro hlen
    obtain ⟨t, h1, _, h2, h3, h4⟩ := ofVectors_spec hashFunction keys values hlen
    exact ⟨t, h1, h2, h3, h4⟩

end HashMap
namespace HashMap

/-- Witness of C11, on the keys 1, 2, 1 with the values 10, 20, 30 (the later value 30 of
key 1 wins, the size is 2) and on sequences of lengths 2 and 1 (the constructor throws). -/
theorem dual_sequence_construction_witness :
    ofVectors id [1, 2] [10] = (.error Error.length_error : Except Error (HashMap Nat Nat)) ∧
    (∃ t : HashMap Nat Nat, ofVectors id [1, 2, 1] [10, 20, 30] = .ok t ∧
        (∀ k : Nat, t.containsKey id k = true ↔ k ∈ [1, 2, 1]) ∧
        (∀ (i : Nat) (h1 : i < [1, 2, 1].length) (h2 : i < [10, 20, 30].length),
          (∀ (j : Nat) (hj : j < [1, 2, 1].length), i < j → [1, 2, 1][j] ≠ [1, 2, 1][i]) →
          t.at_ id [1, 2, 1][i] = .ok [10, 20, 30][i]) ∧
        t.size = (([1, 2, 1] : List Nat).toFinset.card : Int)) ∧
    lastWinsTable.at_ id 1 = .ok 30 ∧ lastWinsTable.at_ id 2 = .ok 20 ∧
    lastWinsTable.size = 2 :=
  ⟨(dual_sequence_construction id [1, 2] [10]).1.2 (by decide),
    (dual_sequence_construction id [1, 2, 1] [10, 20, 30]).2 rfl, rfl, rfl, by decide⟩
end HashMap

namespace HashMap

variable {K V : Type} [DecidableEq K] [DecidableEq V]

theorem erase_fst (hashFunction : K → Nat) (t : HashMap K V) (key : K) :
    (t.erase hashFunction key).1 = t.containsKey hashFunction key := by
  unfold erase containsKey
  cases t.findEntryByKey hashFunction key <;> rfl

theorem dictionary_erase_eq (hashFunction : String → Nat) (d : Dictionary) (key : String) :
    Dictionary.erase hashFunction d key =
      if d.containsKey hashFunction key then .ok (true, (HashMap.erase hashFunction d key).2)
      else .error Error.InvalidKey := by
  simp only [Dictionary.erase, erase_fst]
  cases d.containsKey hashFunction key <;> rfl

/-- The strict-erase scenario for whatever `std::hash<std::string>` is: in the dictionary
constructed from a, b, c the first `erase("a")` succeeds and a second one throws. -/
theorem abc_strict_erase (hashFunction : String → Nat) :
    ∃ d d1 : Dictionary, ofVectors hashFunction ["a", "b", "c"] ["1", "2", "3"] = .ok d ∧
      Dictionary.erase hashFunction d "a" = .ok (true, d1) ∧
      Dictionary.erase hashFunction d1 "a" = .error Error.InvalidKey := by
  obtain ⟨d, hd, hwf, hc, _, _⟩ :=
    ofVectors_spec hashFunction ["a", "b", "c"] ["1", "2", "3"] rfl
  refine ⟨d, (HashMap.erase hashFunction d "a").2, hd, ?_, ?_⟩
  · rw [dictionary_erase_eq, if_pos ((hc "a").2 (by decide))]
  · rw [dictionary_erase_eq, erase_containsKey hwf]
    simp

theorem dictionary_update_eq (hashFunction : String → Nat) (d : Dictionary)
    (pairs : List (String × String)) :
    Dictionary.update hashFunction d pairs =
      pairs.foldl (fun t kv => (t.insertEntry hashFunction kv.1 kv.2 true).2) d := rfl

/-- C13 (update is an upsert): in every reachable dictionary, after `update(pairs)` the
key of every pair is contained and maps to the value of the last pair with that key, every
key that does not occur in `pairs` is contained and mapped as before, and the size is the
number of distinct keys among the keys stored before and the keys of `pairs`. -/
theorem update_upsert (hashFunction : String → Nat) (d : Dictionary)
    (pairs : List (String × String)) (hr : Reachable hashFunction d) :
    (∀ (i : Nat) (hi : i < pairs.length),
      (∀ (j : Nat) (hj : j < pairs.length), i < j → pairs[j].1 ≠ pairs[i].1) →
      (Dictionary.update hashFunction d pairs).at_ hashFunction pairs[i].1 = .ok pairs[i].2) ∧
    (∀ k : String, k ∈ pairs.map Prod.fst →
      (Dictionary.update hashFunction d pairs).containsKey hashFunction k = true) ∧
    (∀ k : String, k ∉ pairs.map Prod.fst →
      (Dictionary.update hashFunction d pairs).at_ hashFunction k = d.at_ hashFunction k ∧
      (Dictionary.update hashFunction d pairs).containsKey hashFunction k =
        d.containsKey hashFunction k) ∧
    (Dictionary.update hashFunction d pairs).size =
      ((d.data.flatten.map Prod.fst ++ pairs.map Prod.fst).toFinset.card : Int) := by
  have h := hr.wf
  rw [dictionary_update_eq]
  refine ⟨foldl_insertEntry_true_at_last hashFunction pairs d h, ?_, ?_,
    foldl_insertEntry_true_size hashFunction pairs d h⟩
  · intro k hk
    exact (foldl_insertEntry_true_containsKey hashFunction pairs d h k).2 (Or.inl hk)
  · intro k hk
    refine ⟨foldl_insertEntry_true_at_other hashFunction pairs d h k hk, ?_⟩
    rw [Bool.eq_iff_iff, foldl_insertEntry_true_containsKey hashFunction pairs d h k]
    exact ⟨fun h1 => h1.resolve_left hk, Or.inr⟩

end HashMap
namespace HashMap

/-- Witness of C13, on the dictionary built from a, b, c updated with (a, 9), (d, 4),
(a, 7): a maps to 7, d to 4, b still to 2, and the size is 4. -/
theorem update_upsert_witness :
    (Dictionary.update stringHash abcTable updatePairs).at_ stringHash "a" = .ok "7" ∧
    (Dictionary.update stringHash abcTable updatePairs).at_ stringHash "d" = .ok "4" ∧
    (Dictionary.update stringHash abcTable updatePairs).at_ stringHash "b" = .ok "2" ∧
    (Dictionary.update stringHash abcTable updatePairs).size = 4 ∧
    ((Dictionary.update stringHash abcTable updatePairs).at_ stringHash "b" =
        abcTable.at_ stringHash "b" ∧
      (Dictionary.update stringHash abcTable updatePairs).containsKey stringHash "b" =
        abcTable.containsKey stringHash "b") ∧
    (Dictionary.update stringHash abcTable updatePairs).size =
      ((abcTable.data.flatten.map Prod.fst ++ updatePairs.map Prod.fst).toFinset.card : Int) :=
  ⟨rfl, rfl, rfl, by decide,
    (update_upsert stringHash abcTable updatePairs abcTable_reachable).2.2.1 "b" (by decide),
    (update_upsert stringHash abcTable updatePairs abcTable_reachable).2.2.2⟩
end HashMap

namespace HashMap

variable {K V : Type} [DecidableEq K] [DecidableEq V]

theorem beq_iff_lookups {hashFunction : K → Nat} {a b : HashMap K V}
    (wa : WF hashFunction a) (wb : WF hashFunction b) :
    beq hashFunction a b = true ↔
      ∀ k : K, a.containsKey hashFunction k = b.containsKey hashFunction k ∧
        a.at_ hashFunction k = b.at_ hashFunction k := by
  rw [beq_iff_mem wa wb]
  constructor
  · rintro ⟨_, h2, h3⟩ k
    have hiff : ∀ v, (k, v) ∈ a.data.flatten ↔ (k, v) ∈ b.data.flatten :=
      fun v => ⟨h2 (k, v), h3 (k, v)⟩
    exact ⟨containsKey_congr wa wb k hiff, at_congr wa wb k hiff⟩
  · intro h
    have hiff : ∀ item : K × V, item ∈ a.data.flatten ↔ item ∈ b.data.flatten := by
      rintro ⟨k, v⟩
      rw [← wa.at_ok_iff, ← wb.at_ok_iff, (h k).2]
    refine ⟨?_, fun item => (hiff item).1, fun item => (hiff item).2⟩
    have hperm := (List.perm_ext_iff_of_nodup (List.Nodup.of_map Prod.fst wa.nodup)
      (List.Nodup.of_map Prod.fst wb.nodup)).2 hiff
    rw [wa.count, wb.count, hperm.length_eq]

theorem beq_refl {hashFunction : K → Nat} {a : HashMap K V} (wa : WF hashFunction a) :
    beq hashFunction a a = true :=
  (beq_iff_mem wa wa).2 ⟨rfl, fun _ h => h, fun _ h => h⟩

theorem beq_size {hashFunction : K → Nat} {a b : HashMap K V}
    (wa : WF hashFunction a) (wb : WF hashFunction b) (h : beq hashFunction a b = true) :
    a.size = b.size :=
  ((beq_iff_mem wa wb).1 h).1

theorem beq_new_iff {hashFunction : K → Nat} {s : HashMap K V} (ws : WF hashFunction s) :
    beq hashFunction (new : HashMap K V) s = true ↔ s.size = 0 := by
  rw [beq_iff_mem (WF_new hashFunction) ws]
  have hnil : (new : HashMap K V).data.flatten = [] := init_flatten _ _
  rw [hnil]
  unfold size
  constructor
  · rintro ⟨h1, _, _⟩
    rw [← h1]
    rfl
  · intro h0
    have hlen : s.data.flatten = [] := by
      have := ws.count
      rw [h0] at this
      exact List.length_eq_zero.1 (by exact_mod_cast this.symm)
    refine ⟨by rw [h0]; rfl, fun _ h => absurd h (List.not_mem_nil _), ?_⟩
    intro item h
    rw [hlen] at h
    exact h

theorem copy_eq {hashFunction : K → Nat} {s : HashMap K V} (ws : WF hashFunction s) :
    s.copy hashFunction = if s.size = 0 then new else s := by
  unfold copy
  rw [assign_eq (WF_new hashFunction) ws]
  by_cases h0 : s.size = 0
  · rw [if_pos ((beq_new_iff ws).2 h0), if_pos h0]
  · rw [if_neg (fun h => h0 ((beq_new_iff ws).1 h)), if_neg h0]

theorem eq_replicate_of_flatten_nil {α : Type} (l : List (List α)) (h : l.flatten = []) :
    l = List.replicate l.length [] := by
  induction l with
  | nil => rfl
  | cons b l ih =>
    simp only [List.flatten_cons, List.append_eq_nil] at h
    rw [List.length_cons, List.replicate_succ, h.1, ← ih h.2]

omit [DecidableEq K] [DecidableEq V] in
theorem eq_new_of_empty {hashFunction : K → Nat} {s : HashMap K V} (ws : WF hashFunction s)
    (h0 : s.size = 0) (hcap : s.capacity = 16) : s = new := by
  have hfl : s.data.flatten = [] := by
    have := ws.count
    unfold size at h0
    rw [h0] at this
    exact List.length_eq_zero.1 (by exact_mod_cast this.symm)
  have hdata := eq_replicate_of_flatten_nil s.data hfl
  rw [ws.len] at hdata
  unfold capacity at hcap
  unfold size at h0
  cases s
  simp only at hdata hcap h0
  subst hcap h0
  rw [hdata]
  rfl

end HashMap

namespace HashMap

variable {K V : Type} [DecidableEq K] [DecidableEq V]

/-- The copy constructor does not always keep the capacity: the reachable empty table of
capacity 1 is copied to a table of capacity 16 with 16 buckets, because the assignment
inside the copy constructor finds the default table equal to the source and returns. -/
theorem copy_capacity_counterexample :
    Reachable id shrunkTable ∧ shrunkTable.capacity = 1 ∧ shrunkTable.size = 0 ∧
    (shrunkTable.copy id).capacity = 16 ∧
    ¬ ((shrunkTable.copy id).capacity = shrunkTable.capacity) ∧
    ¬ ((shrunkTable.copy id).data = shrunkTable.data) :=
  ⟨shrunkTable_reachable, by decide, by decide, by decide, by decide, by decide⟩

/-- C15, amended (copy construction): for every reachable source table, the copy has the
same count as the source, compares equal to it and answers `containsKey` and `at` as it
does; if the source is not empty or has capacity 16, the copy is the source field by
field, so it has the same capacity and at every bucket index the same entries in the
same order; if the source is empty, the copy is the default table of capacity 16. -/
theorem copy_constructor [Inhabited V] (hashFunction : K → Nat) (s : HashMap K V)
    (hr : Reachable hashFunction s) :
    (s.copy hashFunction).size = s.size ∧
    beq hashFunction (s.copy hashFunction) s = true ∧
    (∀ k : K, (s.copy hashFunction).containsKey hashFunction k = s.containsKey hashFunction k ∧
      (s.copy hashFunction).at_ hashFunction k = s.at_ hashFunction k) ∧
    (s.size ≠ 0 ∨ s.capacity = 16 →
      s.copy hashFunction = s ∧ (s.copy hashFunction).capacity = s.capacity ∧
      ∀ i : Nat, (s.copy hashFunction).bucketAt i = s.bucketAt i) ∧
    (s.size = 0 → s.copy hashFunction = new ∧ (s.copy hashFunction).capacity = 16) := by
  have ws := hr.wf
  have hcopy := copy_eq ws
  have hbeq : beq hashFunction (s.copy hashFunction) s = true := by
    rw [hcopy]
    by_cases h0 : s.size = 0
    · rw [if_pos h0]
      exact (beq_new_iff ws).2 h0
    · rw [if_neg h0]
      exact beq_refl ws
  have wc : WF hashFunction (s.copy hashFunction) := assign_WF (WF_new hashFunction) ws
  refine ⟨beq_size wc ws hbeq, hbeq, (beq_iff_lookups wc ws).1 hbeq, ?_, ?_⟩
  · intro hor
    have heq : s.copy hashFunction = s := by
      rw [hcopy]
      by_cases h0 : s.size = 0
      · rw [if_pos h0]
        rcases hor with h | h
        · exact absurd h0 h
        · exact (eq_new_of_empty ws h0 h).symm
      · rw [if_neg h0]
    rw [heq]
    exact ⟨rfl, rfl, fun _ => rfl⟩
  · intro h0
    rw [hcopy, if_pos h0]
    exact ⟨rfl, rfl⟩

/-- Witness of C15 as amended, on the table holding 1, 2, 3 (copied field by field) and
on the empty table of capacity 1 (copied to the default table). -/
theorem copy_constructor_witness :
    (threeKeys.copy id = threeKeys ∧ (threeKeys.copy id).capacity = threeKeys.capacity ∧
      ∀ i : Nat, (threeKeys.copy id).bucketAt i = threeKeys.bucketAt i) ∧
    (shrunkTable.copy id = new ∧ (shrunkTable.copy id).capacity = 16) ∧
    (shrunkTable.copy id).size = shrunkTable.size ∧
    beq id (shrunkTable.copy id) shrunkTable = true :=
  ⟨(copy_constructor id threeKeys threeKeys_reachable).2.2.2.1 (Or.inl (by decide)),
    (copy_constructor id shrunkTable shrunkTable_reachable).2.2.2.2 (by decide),
    (copy_constructor id shrunkTable shrunkTable_reachable).1,
    (copy_constructor id shrunkTable shrunkTable_reachable).2.1⟩

/-- C16 (assignment makes the destination equal to the source): for reachable tables `a`
and `b`, after `a = b` the comparison `a == b` is true, every key has the same
`containsKey` and `at` result in `a` as in `b`, and the sizes agree.  On the early-return
path (`a == b` before) `a` is left as it was; on the copying path `a` becomes `b` field by
field, whether or not the capacities differed.  The source is a `const` reference: the
assignment returns the new destination only. -/
theorem assignment_equal [Inhabited V] (hashFunction : K → Nat) (a b : HashMap K V)
    (ha : Reachable hashFunction a) (hb : Reachable hashFunction b) :
    beq hashFunction (a.assign hashFunction b) b = true ∧
    (∀ k : K,
      (a.assign hashFunction b).containsKey hashFunction k = b.containsKey hashFunction k ∧
      (a.assign hashFunction b).at_ hashFunction k = b.at_ hashFunction k) ∧
    (a.assign hashFunction b).size = b.size ∧
    (beq hashFunction a b = true → a.assign hashFunction b = a) ∧
    (beq hashFunction a b = false → a.assign hashFunction b = b) := by
  have wa := ha.wf
  have wb := hb.wf
  have hassign := assign_eq wa wb
  have wr : WF hashFunction (a.assign hashFunction b) := assign_WF wa wb
  have hbeq : beq hashFunction (a.assign hashFunction b) b = true := by
    rw [hassign]
    by_cases he : beq hashFunction a b = true
    · rw [if_pos he]
      exact he
    · rw [if_neg he]
      exact beq_refl wb
  refine ⟨hbeq, (beq_iff_lookups wr wb).1 hbeq, beq_size wr wb hbeq, ?_, ?_⟩
  · intro he
    rw [hassign, if_pos he]
  · intro he
    rw [hassign, if_neg (by rw [he]; exact Bool.false_ne_true)]

theorem oneKeyWide_reachable : Reachable id oneKeyWide :=
  Reachable.insert _ _ _ Reachable.new

theorem oneKeyOther_reachable : Reachable id oneKeyOther :=
  Reachable.insert _ _ _ Reachable.new

theorem oneKeyNarrow_reachable : Reachable id oneKeyNarrow :=
  Reachable.erase _ _ (Reachable.insert _ _ _ (Reachable.insert _ _ _ Reachable.new))

/-- Witness of C16: assigning the table holding 1 ↦ 11 (capacity 16) and the table
holding 1 ↦ 10 at capacity 4 to the table holding 1 ↦ 10 at capacity 16; the first
assignment copies, the second returns early and keeps capacity 16. -/
theorem assignment_equal_witness :
    oneKeyWide.assign id oneKeyOther = oneKeyOther ∧
    (oneKeyWide.assign id oneKeyNarrow = oneKeyWide ∧ oneKeyNarrow.capacity = 4 ∧
      (oneKeyWide.assign id oneKeyNarrow).capacity = 16) ∧
    beq id (oneKeyWide.assign id oneKeyOther) oneKeyOther = true ∧
    beq id (oneKeyWide.assign id oneKeyNarrow) oneKeyNarrow = true ∧
    (oneKeyWide.assign id oneKeyNarrow).size = oneKeyNarrow.size :=
  ⟨(assignment_equal id oneKeyWide oneKeyOther oneKeyWide_reachable
      oneKeyOther_reachable).2.2.2.2 (by decide),
    ⟨(assignment_equal id oneKeyWide oneKeyNarrow oneKeyWide_reachable
      oneKeyNarrow_reachable).2.2.2.1 (by decide), by decide, by decide⟩,
    (assignment_equal id oneKeyWide oneKeyOther oneKeyWide_reachable
      oneKeyOther_reachable).1,
    (assignment_equal id oneKeyWide oneKeyNarrow oneKeyWide_reachable
      oneKeyNarrow_reachable).1,
    (assignment_equal id oneKeyWide oneKeyNarrow oneKeyWide_reachable
      oneKeyNarrow_reachable).2.2.1⟩

/-- C17 (the bucket index is the hash modulo the capacity): in every reachable table with
capacity `c` and for every key it contains, `getBucketIndex` returns
`hashFunction(key) & (c - 1)`, which is `hashFunction(key) mod c` and lies below `c`, and
`getBucketSize` returns the length of the bucket at that index, which is at least 1. -/
theorem bucket_index_mod [Inhabited V] (hashFunction : K → Nat) (t : HashMap K V) (key : K)
    (hr : Reachable hashFunction t) (hc : t.containsKey hashFunction key = true) :
    t.getBucketIndex hashFunction key = .ok (hashFunction key &&& (t.capacity - 1)) ∧
    hashFunction key &&& (t.capacity - 1) = hashFunction key % t.capacity ∧
    hashFunction key % t.capacity < t.capacity ∧
    t.getBucketSize hashFunction key =
      .ok (t.bucketAt (hashFunction key % t.capacity)).length ∧
    1 ≤ (t.bucketAt (hashFunction key % t.capacity)).length := by
  have h := hr.wf
  obtain ⟨n, hn⟩ := h.cap_pow
  have hmod : hashFunction key &&& (t.capacity - 1) = hashFunction key % t.capacity := by
    unfold capacity
    rw [hn]
    exact Nat.and_pow_two_sub_one_eq_mod _ n
  have hhash : t.hash hashFunction key = hashFunction key % t.capacity := hmod
  obtain ⟨ent, hfind⟩ := (containsKey_eq_true_iff hashFunction t key).1 hc
  have hmem := findEntryByKey_mem hashFunction t key ent hfind
  rw [hhash] at hmem
  refine ⟨?_, hmod, Nat.mod_lt _ h.cap_pos, ?_, List.length_pos_of_mem hmem⟩
  · unfold getBucketIndex
    rw [hc]
    rfl
  · unfold getBucketSize
    rw [hc, hhash]
    rfl

/-- Witness of C17, on the table built from a, b, c with the key b, whose hash is 98:
the bucket index is 98 mod 16 = 2 and the bucket holds one entry. -/
theorem bucket_index_mod_witness :
    stringHash "b" = 98 ∧ abcTable.capacity = 16 ∧
    (abcTable.getBucketIndex stringHash "b" =
        .ok (stringHash "b" &&& (abcTable.capacity - 1)) ∧
      stringHash "b" &&& (abcTable.capacity - 1) = stringHash "b" % abcTable.capacity ∧
      stringHash "b" % abcTable.capacity < abcTable.capacity ∧
      abcTable.getBucketSize stringHash "b" =
        .ok (abcTable.bucketAt (stringHash "b" % abcTable.capacity)).length ∧
      1 ≤ (abcTable.bucketAt (stringHash "b" % abcTable.capacity)).length) ∧
    abcTable.getBucketIndex stringHash "b" = .ok 2 :=
  ⟨by decide, by decide,
    bucket_index_mod stringHash abcTable "b" abcTable_reachable (by decide), rfl⟩

end HashMap

namespace HashMap

variable {K V : Type} [DecidableEq K] [DecidableEq V]

end HashMap

namespace HashMap

variable {K V : Type} [DecidableEq K]

/-! ## The 32-bit shrink target -/

theorem wrapInt32_of_range (x : Int) (h1 : -2147483648 ≤ x) (h2 : x < 2147483648) :
    wrapInt32 x = x := by
  unfold wrapInt32
  omega

theorem calculateOptimalCapacityDownLoopInt32_stop (M : Int) (fuel : Nat) (cap : Int)
    (h : factorGeLowerInt32 M cap = false) :
    calculateOptimalCapacityDownLoopInt32 M fuel cap = cap := by
  cases fuel with
  | zero => rfl
  | succ fuel => simp [calculateOptimalCapacityDownLoopInt32, h]

theorem factorGeLowerInt32_natCast (n cap : Nat) (hc : 0 < cap) :
    factorGeLowerInt32 (n : Int) (cap : Int) = decide (cap ≤ 4 * n) := by
  unfold factorGeLowerInt32
  rw [if_pos (by omega)]
  congr 1
  apply propext
  omega

theorem calculateOptimalCapacityDownLoopInt32_spec (n : Nat) (hn : 4 * n < 1073741824) :
    ∀ fuel cap : Nat, 0 < cap → 4 * n < cap * 2 ^ fuel → cap ≤ 4 * n →
      ∃ j : Nat,
        calculateOptimalCapacityDownLoopInt32 (n : Int) fuel (cap : Int) =
          ((cap * 2 ^ (j + 1) : Nat) : Int) ∧
        cap * 2 ^ j ≤ 4 * n ∧ 4 * n < cap * 2 ^ (j + 1) := by
  intro fuel
  induction fuel with
  | zero =>
    intro cap _ h1 h2
    simp only [pow_zero, Nat.mul_one] at h1
    omega
  | succ fuel ih =>
    intro cap hpos h1 h2
    have hc : factorGeLowerInt32 (n : Int) (cap : Int) = true := by
      rw [factorGeLowerInt32_natCast n cap hpos]
      exact decide_eq_true h2
    have hwrap : wrapInt32 ((cap : Int) * 2) = ((cap * 2 : Nat) : Int) := by
      rw [wrapInt32_of_range _ (by omega) (by omega)]
      push_cast
      rfl
    unfold calculateOptimalCapacityDownLoopInt32
    rw [if_pos hc, hwrap]
    by_cases h3 : cap * 2 ≤ 4 * n
    · have h4 : 4 * n < cap * 2 * 2 ^ fuel := by
        rw [pow_succ] at h1
        calc 4 * n < cap * (2 ^ fuel * 2) := h1
          _ = cap * 2 * 2 ^ fuel := by ring
      obtain ⟨j, hj1, hj2, hj3⟩ := ih (cap * 2) (by omega) h4 h3
      refine ⟨j + 1, ?_, ?_, ?_⟩
      · have he : cap * 2 * 2 ^ (j + 1) = cap * 2 ^ (j + 1 + 1) := by ring
        rw [hj1, he]
      · calc cap * 2 ^ (j + 1) = cap * 2 * 2 ^ j := by ring
          _ ≤ 4 * n := hj2
      · calc 4 * n < cap * 2 * 2 ^ (j + 1) := hj3
          _ = cap * 2 ^ (j + 1 + 1) := by ring
    · have hs : factorGeLowerInt32 (n : Int) ((cap * 2 : Nat) : Int) = false := by
        rw [factorGeLowerInt32_natCast n (cap * 2) (by omega)]
        exact decide_eq_false h3
      rw [calculateOptimalCapacityDownLoopInt32_stop _ _ _ hs]
      refine ⟨0, by simp, by simpa using h2, by simpa using Nat.lt_of_not_le h3⟩

/-- Below `2 ^ 28` entries the 32-bit shrink target is the one computed on unbounded
integers. -/
theorem calculateOptimalCapacityDownInt32_eq (n : Nat) (hn : n < 268435456) :
    calculateOptimalCapacityDownInt32 (n : Int) = (calculateOptimalCapacityDown (n : Int) : Int) := by
  cases n with
  | zero => rfl
  | succ m =>
    have h1 : 4 * (m + 1) < 1 * 2 ^ 32 := by
      have : (2 : Nat) ^ 32 = 4294967296 := by norm_num
      omega
    obtain ⟨j, hj1, hj2, hj3⟩ := calculateOptimalCapacityDownLoopInt32_spec (m + 1) (by omega)
      32 1 (by omega) h1 (by omega)
    obtain ⟨i, hi1, hi2, hi3⟩ := calculateOptimalCapacityDown_spec (m + 1) (by omega)
    have hij : j = i := by
      have a : 2 ^ j < 2 ^ (i + 1) := by
        have : 1 * 2 ^ j ≤ 4 * (m + 1) := hj2
        omega
      have b : 2 ^ i < 2 ^ (j + 1) := by
        have : 4 * (m + 1) < 1 * 2 ^ (j + 1) := hj3
        omega
      have a2 := (Nat.pow_lt_pow_iff_right (by omega : 1 < 2)).1 a
      have b2 := (Nat.pow_lt_pow_iff_right (by omega : 1 < 2)).1 b
      omega
    unfold calculateOptimalCapacityDownInt32
    have hne : ((m + 1 : Nat) : Int) ≠ 0 := by omega
    rw [if_neg hne]
    have hcast : ((1 : Nat) : Int) = 1 := rfl
    rw [← hcast, hj1, hi1, hij, Nat.one_mul, pow_succ]
    rw [Int.tdiv_eq_ediv (by positivity) (by norm_num)]
    norm_cast
    simp

end HashMap

namespace HashMap

variable {K V : Type} [DecidableEq K]

/-! ## The 32-bit checks and the checks on unbounded integers -/

/-- While fewer than `2 ^ 28` entries are stored, the 32-bit shrink check is the shrink
check on unbounded integers, and it returns. -/
theorem resizeDownInt32_eq (hashFunction : K → Nat) (t : HashMap K V) (n : Nat)
    (hs : t.size = (n : Int)) (hn : n < 268435456) :
    t.resizeDownInt32 hashFunction = .ok (t.resizeDown hashFunction) := by
  unfold resizeDownInt32 resizeDown
  simp only [hs, calculateOptimalCapacityDownInt32_eq n hn]
  by_cases hc : t.mapCapacity ≤ calculateOptimalCapacityDown (n : Int)
  · rw [if_pos hc, if_pos (by exact_mod_cast hc)]
  · rw [if_neg hc, if_neg (by exact_mod_cast hc), if_neg (by omega), Int.toNat_ofNat]

theorem eraseInt32_absent [DecidableEq V] (hashFunction : K → Nat) (t : HashMap K V) (key : K)
    (hfind : t.findEntryByKey hashFunction key = none) :
    t.eraseInt32 hashFunction key = .ok (false, t) := by
  unfold eraseInt32
  rw [hfind]

theorem WF.size_pos_of_find [DecidableEq V] {hashFunction : K → Nat} {t : HashMap K V}
    (h : WF hashFunction t) (key : K) (ent : K × V)
    (hfind : t.findEntryByKey hashFunction key = some ent) :
    ∃ m : Nat, t.size = (m : Int) + 1 := by
  have hperm := (erase_present_spec h key ent hfind).2.2.1
  have hcount : t.size = (t.data.flatten.length : Int) := h.count
  have hlen := hperm.length_eq
  simp only [List.length_cons] at hlen
  exact ⟨t.data.flatten.length - 1, by omega⟩

/-- A stored key, at most `2 ^ 28` entries: `eraseInt32` returns what `erase` returns. -/
theorem eraseInt32_present [DecidableEq V] {hashFunction : K → Nat} {t : HashMap K V}
    (h : WF hashFunction t) (key : K) (ent : K × V)
    (hfind : t.findEntryByKey hashFunction key = some ent) (hsz : t.size ≤ 268435456) :
    t.eraseInt32 hashFunction key = .ok (t.erase hashFunction key) := by
  obtain ⟨m, hm⟩ := h.size_pos_of_find key ent hfind
  unfold eraseInt32
  rw [hfind]
  simp only
  rw [resizeDownInt32_eq hashFunction _ m (by unfold size at hm ⊢; simp only; omega) (by omega),
    erase_present hashFunction t key ent hfind]

/-- With at most `2 ^ 28` entries stored, `eraseInt32` is `erase`. -/
theorem eraseInt32_eq [DecidableEq V] {hashFunction : K → Nat} {t : HashMap K V}
    (h : WF hashFunction t) (key : K) (hsz : t.size ≤ 268435456) :
    t.eraseInt32 hashFunction key = .ok (t.erase hashFunction key) := by
  cases hfind : t.findEntryByKey hashFunction key with
  | none => rw [eraseInt32_absent hashFunction t key hfind, erase_absent hashFunction t key hfind]
  | some ent => exact eraseInt32_present h key ent hfind hsz

end HashMap

namespace HashMap

variable {K V : Type} [DecidableEq K] [DecidableEq V]

/-! ## Reachability with the 32-bit checks -/

end HashMap

namespace HashMap

variable {K V : Type} [DecidableEq K] [DecidableEq V]

/-! ## The table after `n` inserts of distinct keys -/

end HashMap

namespace HashMap

variable {K V : Type} [DecidableEq K] [DecidableEq V]

/-! ## Erase with the 32-bit shrink check -/

end HashMap

namespace HashMap

variable {K V : Type} [DecidableEq K] [DecidableEq V]

/-! ## Insert with the 32-bit growth check -/

end HashMap

namespace HashMap

variable {K V : Type} [DecidableEq K] [DecidableEq V]

/-! ## The shrink target and the capacity after an erase -/

end HashMap

namespace HashMap

variable {K V : Type} [DecidableEq K] [DecidableEq V]

/-! ## `Dictionary::erase` with the 32-bit shrink check -/

end HashMap

namespace HashMap

variable {K V : Type} [DecidableEq K] [DecidableEq V]

/-! ## The load factor on the single-entry paths -/

end HashMap

namespace HashMap

variable {K V : Type} [DecidableEq K] [DecidableEq V]

/-! ## The load factor on the bulk paths -/

end HashMap
